import Mathlib

/-!
# Verification of the `chartparse` active chart parser

A shallow embedding of `src/python/chart/chart.py`, `edges.py`, `features.py`,
`english.py` and `lattice.py` (an agenda-driven active chart parser with a
simple atomic feature system), together with theorems settling the claims
about its specification.

Conventions of the embedding:

* Python sets of edges are modelled as lists kept duplicate-free with respect
  to the `Edge.__eq__` equivalence (which ignores the `constraints` field);
  iteration order of a set is modelled as insertion order.
* The agenda (a Python list with `append`/`pop()` at the end, i.e. a LIFO
  stack) is modelled as a list whose head is the top of the stack.
* Fallible operations return `Option`; the unbounded driver loop takes fuel
  and returns `none` when the fuel runs out or an internal error fires.
* The feature-category operations `fcheck`, `leq_general`, `extendc` and the
  feature-grammar builder `make_feature_grammar` are used by the code but
  their definitions are not part of the source tree; they are modelled from
  the spec (each such definition is marked `Modelled from the spec:`).
  Feature-binding maps are represented as key-sorted association lists.
-/

namespace ChartParse

set_option maxRecDepth 1000000
set_option maxHeartbeats 1000000000
set_option synthInstance.maxSize 512

/-- A syntactic category: a name together with atomic feature bindings
(`ImmutableCategory` in `features.py`, a `(cat, features)` named tuple).
The bindings are kept as a key-sorted association list; a category written
without features (Python `features=None`) is represented by the empty list. -/
structure Cat where
  cat : String
  features : List (String × String)
deriving DecidableEq, Repr, Hashable

/-- Look a feature name up in a binding list (leftmost binding wins). -/
def flookup (fs : List (String × String)) (k : String) : Option String :=
  match fs with
  | [] => none
  | (k', v) :: rest => if k' = k then some v else flookup rest k

/-- Modelled from the spec: `fcheck` (missing from `src/`, used by
`Chart.compatible`): two categories are compatible on features iff no feature
name is bound to conflicting values in the two maps; a missing binding on
either side is not a conflict. -/
def Cat.fcheck (self other : Cat) : Bool :=
  self.features.all fun (k, v) =>
    match flookup other.features k with
    | none => true
    | some v' => v = v'

/-- Modelled from the spec: `leq_general` (missing from `src/`, used by
`Edge.less_general`): `c₁` is at most as general as `c₂` iff the names match
and every binding of `c₂` is also a binding of `c₁`
(`bindings(c₁) ⊇ bindings(c₂)`). -/
def Cat.leq_general (self other : Cat) : Bool :=
  self.cat = other.cat &&
    other.features.all fun (k, v) => flookup self.features k = some v

/-- Insert a binding into a key-sorted binding list, overwriting an existing
binding for the same key (the representation of Python's map update). -/
def finsert (fs : List (String × String)) (k : String) (v : String) :
    List (String × String) :=
  match fs with
  | [] => [(k, v)]
  | (k', v') :: rest =>
    if k = k' then (k, v) :: rest
    else if k < k' then (k, v) :: (k', v') :: rest
    else (k', v') :: finsert rest k v

/-- Modelled from the spec: `extendc` (missing from `src/`, used by
`Edge.percolate`): copy, for each `k ∈ keys`, the binding `k ↦ src[k]` onto
`self` if `src` has one. -/
def Cat.extendc (self : Cat) (keys : List String) (src : Cat) : Cat :=
  { self with
    features := keys.foldl (fun fs k =>
      match flookup src.features k with
      | none => fs
      | some v => finsert fs k v) self.features }

/-- A rule's constraint descriptor: the set of re-entrant feature names on
the mother, and one set of re-entrant names per right-hand-side position
(spec §3; this is the shape `Edge.percolate` consumes). -/
abbrev Constr := List String × List (List String)

/-- One production. The probability field of `english.Rule` plays no part in
parsing and is omitted; the plain (featureless) grammar gives every rule the
empty constraint descriptor that `Edge.__new__` would supply for
`constraints=None`. -/
structure Rule where
  lhs : Cat
  rhs : List Cat
  constraints : Constr
deriving DecidableEq, Repr

/-- The constraint descriptor `Edge.__new__` builds for `constraints=None`:
`(frozenset(), tuple(frozenset() for _ in needed))`. -/
def defaultConstraints (needed : List Cat) : Constr :=
  ([], needed.map fun _ => [])

/-- An edge (`edges.py`): an assertion about the span `[left, right]` with a
label, the still-needed daughter categories, and a constraint descriptor. -/
structure Edge where
  label : Cat
  left : Nat
  right : Nat
  needed : List Cat
  constraints : Constr
deriving DecidableEq, Repr

/-- `Edge(label, left, right, needed, None)`: the constructor with the
default constraint descriptor. -/
def Edge.mkDef (label : Cat) (left right : Nat) (needed : List Cat) : Edge :=
  ⟨label, left, right, needed, defaultConstraints needed⟩

/-- `Edge.__eq__`: equality for chart membership ignores `constraints`.
(The four conjuncts are evaluated span-first here; `edges.py` writes the
label comparison first, but the conjunction's value is the same and the
numeric comparisons keep evaluation cheap.) -/
def Edge.chartEq (self other : Edge) : Bool :=
  self.left = other.left && self.right = other.right &&
    self.label = other.label && self.needed = other.needed

/-- The key tuple `Edge.__hash__` hashes: `(label, left, right, needed)`. -/
def Edge.key (e : Edge) : Cat × Nat × Nat × List Cat :=
  (e.label, e.left, e.right, e.needed)

/-- `Edge.__hash__`: the hash of the key tuple (the `constraints` field does
not participate). -/
def Edge.pyHash (e : Edge) : UInt64 :=
  hash e.key

/-- `Edge.iscomplete`: an edge is complete iff `needed` is empty. -/
def Edge.iscomplete (e : Edge) : Bool :=
  e.needed.isEmpty

/-- `Edge.ispartial` returns `self.needed`; its truthiness (what
`incorporate` branches on) is the non-emptiness of `needed`. -/
def Edge.ispartialB (e : Edge) : Bool :=
  !e.needed.isEmpty

/-- `Edge.less_general`: strict difference in generality (features only). -/
def Edge.less_general (self e : Edge) : Bool :=
  e.left = self.left && e.right = self.right &&
    (self.label ≠ e.label || self.needed ≠ e.needed) &&
    Cat.leq_general self.label e.label &&
    self.needed.length = e.needed.length &&
    (self.needed.zip e.needed).all fun (c₁, c₂) => Cat.leq_general c₁ c₂

/-- `Edge.percolate`: copy the atomic features of the consumed category
`cat` onto the label (via the mother's re-entrancy keys) and onto the
remaining needed categories (via the per-position keys, whose head — the
position just consumed — is cut away). -/
def Edge.percolate (self : Edge) (cat : Cat) : Edge :=
  let cs := self.constraints
  let newlabel := self.label.extendc cs.1 cat
  let newneeded := (cs.2.tail.zip self.needed).map fun (c, r) => r.extendc c cat
  { label := newlabel, left := self.left, right := self.right,
    needed := newneeded, constraints := (cs.1, cs.2.tail) }

/-- Membership of an edge in a modelled Python set of edges (`e in s` uses
`Edge.__eq__`, i.e. chart equality). -/
def memberChart (s : List Edge) (e : Edge) : Bool :=
  s.any fun x => Edge.chartEq x e

/-- `s - set([p])`: remove (by chart equality) from a modelled set. -/
def removeChart (s : List Edge) (p : Edge) : List Edge :=
  s.filter fun x => !Edge.chartEq x p

/-- The predecessor map, a model of the `defaultdict(set)` `self.prev`:
entries are grouped into buckets keyed by the edge's `left` index (a plain
implementation detail of the dictionary — lookups, updates and resets are
still keyed by the edge itself under chart equality). -/
abbrev PrevMap := List (Nat × List (Edge × List Edge))

/-- The chart parser's state (`Chart` in `chart.py`): the indexed stores of
partial and complete edges, the predecessor map, the agenda, plus the
configuration fixed at construction time (grammar and `using_features`). -/
structure Chart where
  usingFeatures : Bool
  grammar : List Rule
  partials : List (List Edge)
  completes : List (List Edge)
  prev : PrevMap
  agenda : List Edge
deriving Repr

/-- Read bucket `i` of a store. -/
def bucketGet (bs : List (List Edge)) (i : Nat) : List Edge :=
  bs.getD i []

/-- Write bucket `i` of a store. -/
def bucketSet (bs : List (List Edge)) (i : Nat) (b : List Edge) :
    List (List Edge) :=
  bs.set i b

/-- `Chart.compatible`: the feature-mode category match — same name and
`fcheck` holds. -/
def compatible (ruleCategory chartCategory : Cat) : Bool :=
  ruleCategory.cat = chartCategory.cat && ruleCategory.fcheck chartCategory

/-- `self.compat`: `Chart.compatible` when features are used, plain equality
(`operator.eq`) otherwise. -/
def Chart.compat (ch : Chart) (a b : Cat) : Bool :=
  if ch.usingFeatures then compatible a b else a = b

/-- `Chart.allcompatible`: elementwise `compat` of two category sequences of
equal length. -/
def Chart.allcompatible (ch : Chart) (cs₁ cs₂ : List Cat) : Bool :=
  cs₁.length = cs₂.length &&
    (cs₁.zip cs₂).all fun (c₁, c₂) => ch.compat c₁ c₂

/-- Look an edge up in one bucket of the predecessor map (keys compared by
chart equality, as Python dict keys hash/compare via
`Edge.__hash__`/`__eq__`); a missing key reads as the empty set
(`defaultdict(set)`). -/
def prevFindB (b : List (Edge × List Edge)) (e : Edge) : List Edge :=
  match b.find? (fun kv => Edge.chartEq kv.1 e) with
  | some kv => kv.2
  | none => []

/-- Look an edge up in the predecessor map. -/
def prevFind (m : PrevMap) (e : Edge) : List Edge :=
  match m.find? (fun kv => kv.1 = e.left) with
  | some kv => prevFindB kv.2 e
  | none => []

/-- `self.prev[e]` as read. -/
def Chart.prevGet (ch : Chart) (e : Edge) : List Edge :=
  prevFind ch.prev e

/-- `self.prev[e].add(c)` within one bucket: extend the existing entry's
set (keeping the first-inserted key object), or create a new entry. -/
def prevAddB (b : List (Edge × List Edge)) (e c : Edge) :
    List (Edge × List Edge) :=
  match b with
  | [] => [(e, [c])]
  | (k, s) :: rest =>
    if Edge.chartEq k e then
      (k, if memberChart s c then s else s ++ [c]) :: rest
    else (k, s) :: prevAddB rest e c

/-- `self.prev[e].add(c)` on the `defaultdict(set)`. -/
def prevAdd (m : PrevMap) (e c : Edge) : PrevMap :=
  match m with
  | [] => [(e.left, prevAddB [] e c)]
  | (k, b) :: rest =>
    if k = e.left then (k, prevAddB b e c) :: rest
    else (k, b) :: prevAdd rest e c

/-- `self.prev[e] = set()` within one bucket (dict assignment: the
first-inserted equal key is kept, its value replaced). -/
def prevResetB (b : List (Edge × List Edge)) (e : Edge) :
    List (Edge × List Edge) :=
  match b with
  | [] => [(e, [])]
  | (k, s) :: rest =>
    if Edge.chartEq k e then (k, []) :: rest
    else (k, s) :: prevResetB rest e

/-- `self.prev[e] = set()` on the `defaultdict(set)`. -/
def prevReset (m : PrevMap) (e : Edge) : PrevMap :=
  match m with
  | [] => [(e.left, prevResetB [] e)]
  | (k, b) :: rest =>
    if k = e.left then (k, prevResetB b e) :: rest
    else (k, b) :: prevReset rest e

/-- `Chart.add_prev`: record a complete predecessor of an edge (the source
also returns the edge; the caller pushes it separately). -/
def Chart.add_prev (ch : Chart) (e c : Edge) : Chart :=
  { ch with prev := prevAdd ch.prev e c }

/-- `hpush`: push onto the agenda (Python appends at the end of the list;
the model keeps the stack top at the head). -/
def Chart.push (ch : Chart) (e : Edge) : Chart :=
  { ch with agenda := e :: ch.agenda }

/-- The feature-mode scan of `membership_check`: at the first member `p` of
the bucket comparable with `e`, either drop `e` (it is less general than
`p`) or replace `p` by `e` (`(previous - set([p])) | set([e])`); `(false,
previous)` when no member is comparable. -/
def mcScan (e : Edge) (previous : List Edge) : List Edge → Bool × List Edge
  | [] => (false, previous)
  | p :: rest =>
    if e.less_general p then (true, previous)
    else if p.less_general e then (true, removeChart previous p ++ [e])
    else mcScan e previous rest

/-- `Chart.membership_check`: classify an incoming edge against a bucket.
Present → `(true, bucket)`; absent without features → `(false, bucket)`;
with features, scan the bucket (`mcScan`). -/
def Chart.membership_check (ch : Chart) (e : Edge) (previous : List Edge) :
    Bool × List Edge :=
  if memberChart previous e then (true, previous)
  else if !ch.usingFeatures then (false, previous)
  else mcScan e previous previous

/-- `Chart.somepartials(right=i)` (the only filter combination the driver
uses): the partial edges ending at `i`. -/
def Chart.somepartialsRight (ch : Chart) (i : Nat) : List Edge :=
  bucketGet ch.partials i

/-- The fresh empty partial edge `spawn` builds from a rule:
`Edge(label=rule.lhs, left=i, right=i, needed=rule.rhs,
constraints=rule.constraints)`. -/
def spawnEdge (r : Rule) (i : Nat) : Edge :=
  ⟨r.lhs, i, i, r.rhs, r.constraints⟩

/-- One grammar rule's step of `Chart.spawn`: if the rule's first daughter
matches the left corner and no chart-equal edge sits in `partials[i]`, reset
the spawned edge's predecessor set and push it.  A rule with an empty
right-hand side would crash the source on `rhs[0]`; the model skips it (no
grammar here has one). -/
def spawnStep (lc : Cat) (i : Nat) (ch : Chart) (rule : Rule) : Chart :=
  match rule.rhs with
  | [] => ch
  | r₀ :: _ =>
    if ch.compat r₀ lc then
      let e : Edge := spawnEdge rule i
      if !memberChart (ch.somepartialsRight e.left) e then
        ({ ch with prev := prevReset ch.prev e }).push e
      else ch
    else ch

/-- `Chart.spawn`: push, for every grammar rule whose first daughter matches
the left corner `lc`, a fresh empty partial edge at `i` — unless an edge
equal to it (chart equality) is already stored in `partials[i]`; each pushed
edge gets an empty predecessor set. -/
def Chart.spawn (ch : Chart) (lc : Cat) (i : Nat) : Chart :=
  ch.grammar.foldl (spawnStep lc i) ch

/-- One partial partner's step of `pairwithpartials`: if the complete edge
`e`'s label matches what `p` needs next, build the advanced edge, percolate
when features are in use, record `e` as its predecessor and push it.  A
stored partial always has non-empty `needed`; the model skips a (never
stored) complete edge where the source would crash on `needed[0]`. -/
def pairPartialStep (e : Edge) (ch : Chart) (p : Edge) : Chart :=
  match p.needed with
  | [] => ch
  | n₀ :: rest =>
    if ch.compat e.label n₀ then
      let newedge : Edge := ⟨p.label, p.left, e.right, rest, p.constraints⟩
      let newedge := if ch.usingFeatures then newedge.percolate e.label
                     else newedge
      (ch.add_prev newedge e).push newedge
    else ch

/-- `Chart.pairwithpartials`: the fundamental rule pairing a complete edge
`e` with every stored partial that needs `e.label` next. -/
def Chart.pairwithpartials (ch : Chart) (ps : List Edge) (e : Edge) : Chart :=
  ps.foldl (pairPartialStep e) ch

/-- One complete partner's step of `pairwithcompletes` (symmetric to
`pairPartialStep`). -/
def pairCompleteStep (e : Edge) (ch : Chart) (c : Edge) : Chart :=
  match e.needed with
  | [] => ch
  | n₀ :: rest =>
    if ch.compat n₀ c.label then
      let newedge : Edge := ⟨e.label, e.left, c.right, rest, e.constraints⟩
      let newedge := if ch.usingFeatures then newedge.percolate c.label
                     else newedge
      (ch.add_prev newedge c).push newedge
    else ch

/-- `Chart.pairwithcompletes`: the fundamental rule pairing a partial edge
`e` with every stored complete edge starting where `e` ends. -/
def Chart.pairwithcompletes (ch : Chart) (e : Edge) (completes : List Edge) :
    Chart :=
  completes.foldl (pairCompleteStep e) ch

/-- `Chart.incorporate`: add an edge to the chart and trigger the
corresponding actions; `none` models the `raise` of the final (unreachable)
branch. -/
def Chart.incorporate (ch : Chart) (e : Edge) : Option Chart :=
  if e.iscomplete then
    let (flag, bucket) := ch.membership_check e (bucketGet ch.completes e.left)
    let ch := { ch with completes := bucketSet ch.completes e.left bucket }
    if flag then some ch
    else
      let ch := { ch with
        completes := bucketSet ch.completes e.left
          (bucketGet ch.completes e.left ++ [e]) }
      let ch := ch.spawn e.label e.left
      some (ch.pairwithpartials (ch.somepartialsRight e.left) e)
  else if e.ispartialB then
    let (flag, bucket) := ch.membership_check e (bucketGet ch.partials e.right)
    let ch := { ch with partials := bucketSet ch.partials e.right bucket }
    if flag then some ch
    else
      let ch := { ch with
        partials := bucketSet ch.partials e.right
          (bucketGet ch.partials e.right ++ [e]) }
      some (ch.pairwithcompletes e (bucketGet ch.completes e.right))
  else none

/-- The driver loop of `Chart.__init__`: while the agenda is non-empty, pop
an edge (LIFO) and incorporate it.  Fuelled; `none` when the fuel runs out
before the agenda empties. -/
def Chart.run : Nat → Chart → Option Chart
  | 0, ch => if ch.agenda.isEmpty then some ch else none
  | n + 1, ch =>
    match ch.agenda with
    | [] => some ch
    | e :: rest =>
      match Chart.incorporate { ch with agenda := rest } e with
      | none => none
      | some ch' => Chart.run n ch'

/-- `Chart.solutions`: the complete edges covering the whole input whose
label matches the top category. -/
def Chart.solutions (ch : Chart) (topCat : Cat) : List Edge :=
  (bucketGet ch.completes 0).filter fun e =>
    e.right = ch.completes.length - 1 && ch.compat topCat e.label

/-- `Chart.find`: the stored edge equivalent to a probe edge — same span,
compatible label, elementwise-compatible needs (first match in the bucket). -/
def Chart.find (ch : Chart) (e : Edge) : Option Edge :=
  let edges := if e.iscomplete then bucketGet ch.completes e.left
               else bucketGet ch.partials e.right
  edges.find? fun edge =>
    edge.left = e.left && edge.right = e.right &&
      ch.compat edge.label e.label && ch.allcompatible edge.needed e.needed

/-! ### Counting analyses (`trace_edges` / `count`) -/

/-- The memo table `self._traced`, grouped (like `PrevMap`) into buckets
keyed by the edge's `left` index; entries are keyed by the edge itself
under chart equality. -/
abbrev Memo := List (Nat × List (Edge × Nat))

/-- Read one bucket of the memo table. -/
def memoGetB (b : List (Edge × Nat)) (e : Edge) : Option Nat :=
  (b.find? fun kv => Edge.chartEq kv.1 e).map fun kv => kv.2

/-- Read the memo table `self._traced` (keys compared by chart equality). -/
def memoGet (m : Memo) (e : Edge) : Option Nat :=
  match m.find? (fun kv => kv.1 = e.left) with
  | some kv => memoGetB kv.2 e
  | none => none

/-- Write one bucket of the memo table (first equal key updated, else
appended). -/
def memoSetB (b : List (Edge × Nat)) (e : Edge) (n : Nat) :
    List (Edge × Nat) :=
  match b with
  | [] => [(e, n)]
  | (k, v) :: rest =>
    if Edge.chartEq k e then (k, n) :: rest else (k, v) :: memoSetB rest e n

/-- Write the memo table. -/
def memoSet (m : Memo) (e : Edge) (n : Nat) : Memo :=
  match m with
  | [] => [(e.left, memoSetB [] e n)]
  | (k, b) :: rest =>
    if k = e.left then (k, memoSetB b e n) :: rest
    else (k, b) :: memoSet rest e n

/-- The probe edge `trace_edges` builds to recover the partial sister of
`sol` with respect to a predecessor `e`. -/
def probeOf (sol e : Edge) : Edge :=
  ⟨sol.label, sol.left, e.left, e.label :: sol.needed, sol.constraints⟩

/-- `Chart.trace_edges(sol)`: the memoised analysis count.  `T(sol) = 1`
when `prev[sol]` is empty; otherwise `T(sol)` accumulates
`T(e) · T(find(probe))` over the predecessors `e`.  Fuelled recursion on the
predecessor structure; `none` when fuel runs out or a probe is not found in
the chart (the charts reached in this development always contain it). -/
def Chart.traceStep (ch : Chart) (fuel : Nat) :
    Memo → Edge → Option Memo :=
  Nat.rec (motive := fun _ => Memo → Edge → Option Memo)
    (fun _ _ => none)
    (fun _ ih memo sol =>
      if (memoGet memo sol).isSome then some memo
      else
        let ps := ch.prevGet sol
        if ps.isEmpty then some (memoSet memo sol 1)
        else
          ps.foldlM (fun memo e => do
            let probe ← ch.find (probeOf sol e)
            let memo ← ih memo probe
            let memo ← ih memo e
            let te ← memoGet memo e
            let tp ← memoGet memo probe
            let ts ← memoGet memo sol
            pure (memoSet memo sol (ts + te * tp))) (memoSet memo sol 0))
    fuel

/-- `Chart.trace_edges()` with no argument: trace every solution under the
top category and sum their counts (the memo table is returned alongside). -/
def Chart.traceTotal (ch : Chart) (top : Cat) (fuel : Nat) :
    Option (Nat × Memo) :=
  (ch.solutions top).foldlM (fun acc sol => do
    let memo ← ch.traceStep fuel acc.2 sol
    let t ← memoGet memo sol
    pure (acc.1 + t, memo)) (0, [])

/-- The recurrence of spec §4.5 evaluated pointwise on a memo table:
`T(e) = 1` when `prev[e]` is empty, and otherwise
`T(e) = Σ_{c ∈ prev[e]} T(c) · T(sister(e, c))` with the sister looked up
through `Chart.find` on the probe edge. -/
def memoRecurrenceOK (ch : Chart) (memo : Memo) : Bool :=
  memo.all fun kb => kb.2.all fun (e, t) =>
    let ps := ch.prevGet e
    if ps.isEmpty then t = 1
    else
      match ps.foldlM (fun acc c => do
          let s ← ch.find (probeOf e c)
          let tc ← memoGet memo c
          let ts ← memoGet memo s
          pure (acc + tc * ts)) 0 with
      | none => false
      | some v => t = v

/-- `Chart.lexical`: a lexical edge for a word spanning an FSM arc.  In both
modes the label is the bare category of the word (`icat.from_string` of a
plain word yields a featureless category). -/
def lexicalEdge (w : String) (i j : Nat) : Edge :=
  Edge.mkDef ⟨w, []⟩ i j []

/-- `Chart.__init__` up to the driver loop: allocate `final_state + 1`
buckets for `partials` and `completes` and seed the agenda with one lexical
edge per FSM arc (`seed_agenda`), pushed in arc order. -/
def seedChart (usingFeatures : Bool) (grammar : List Rule) (finalState : Nat)
    (arcs : List (Nat × String × Nat)) : Chart :=
  { usingFeatures := usingFeatures
    grammar := grammar
    partials := List.replicate (finalState + 1) []
    completes := List.replicate (finalState + 1) []
    prev := []
    agenda := arcs.foldl (fun ag a => lexicalEdge a.2.1 a.1 a.2.2 :: ag) [] }

/-- `LinearWords.arcs`: the arcs `(i, wᵢ, i+1)` of the linear FSM. -/
def linearArcs (words : List String) : List (Nat × String × Nat) :=
  words.enum.map fun (i, w) => (i, w, i + 1)

/-- A chart seeded from a linear word sequence (`LinearWords.final_state` is
the number of words). -/
def linearChart (usingFeatures : Bool) (grammar : List Rule)
    (words : List String) : Chart :=
  seedChart usingFeatures grammar words.length (linearArcs words)

/-! ### The plain English grammar (`english.py`) -/

/-- Build a featureless production: bare category names, the default empty
constraint descriptor (the working variant's rule objects hand
`Edge.__new__` a `None` constraint field). -/
def plainRule (l : String) (rs : List String) : Rule :=
  let rhs := rs.map fun c => Cat.mk c []
  { lhs := ⟨l, []⟩, rhs := rhs, constraints := defaultConstraints rhs }

/-- `english.GRAMMAR`: the featureless English grammar — the transcription
of `english.RULES` followed by `english.WORDS` (in line order, alternatives
left to right) after `Grammar.__rulify` / `Grammar.__lexicalize`, which
strip the parenthesised feature annotations and split on `->`, `|` and
whitespace.  Note the `det a(num:sing)` lexicon line really declares the
word `det` with category `a`, and `by` is both `passmarker` and `prep`. -/
def englishGRAMMAR : List Rule := [
  plainRule "S" ["Np", "Vp"],
  plainRule "S" ["S", "conj", "S"],
  plainRule "S" ["Np", "cop", "ppart"],
  plainRule "S" ["Np", "cop", "ppart", "passmarker", "Np"],
  plainRule "Np" ["det", "Nn"],
  plainRule "Np" ["Np", "Pp"],
  plainRule "Np" ["pn"],
  plainRule "Np" ["Np", "conj", "Np"],
  plainRule "Nn" ["n"],
  plainRule "Nn" ["adj", "n"],
  plainRule "Vp" ["v", "Np"],
  plainRule "Vp" ["v"],
  plainRule "Vp" ["cop", "adj"],
  plainRule "Vp" ["Vp", "Pp"],
  plainRule "Pp" ["prep", "Np"],
  plainRule "a" ["det"],
  plainRule "conj" ["and"],
  plainRule "cop" ["are"],
  plainRule "n" ["ball"],
  plainRule "adj" ["big"],
  plainRule "ppart" ["bitten"],
  plainRule "adj" ["blue"],
  plainRule "n" ["boy"],
  plainRule "n" ["boys"],
  plainRule "passmarker" ["by"],
  plainRule "prep" ["by"],
  plainRule "n" ["cage"],
  plainRule "v" ["cage"],
  plainRule "v" ["caged"],
  plainRule "ppart" ["caged"],
  plainRule "n" ["cages"],
  plainRule "v" ["cages"],
  plainRule "n" ["chris"],
  plainRule "n" ["computer"],
  plainRule "n" ["computers"],
  plainRule "adj" ["enormous"],
  plainRule "det" ["fifty"],
  plainRule "det" ["four"],
  plainRule "n" ["girl"],
  plainRule "n" ["girls"],
  plainRule "adj" ["green"],
  plainRule "pn" ["he"],
  plainRule "pn" ["her"],
  plainRule "pn" ["him"],
  plainRule "v" ["hit"],
  plainRule "ppart" ["hit"],
  plainRule "v" ["hits"],
  plainRule "n" ["house"],
  plainRule "prep" ["in"],
  plainRule "cop" ["is"],
  plainRule "adj" ["little"],
  plainRule "pn" ["mic"],
  plainRule "n" ["micro"],
  plainRule "n" ["micros"],
  plainRule "prep" ["on"],
  plainRule "n" ["one"],
  plainRule "pn" ["one"],
  plainRule "det" ["one"],
  plainRule "n" ["ones"],
  plainRule "n" ["pdp11"],
  plainRule "n" ["pdp11s"],
  plainRule "n" ["pigeon"],
  plainRule "n" ["pigeons"],
  plainRule "n" ["program"],
  plainRule "v" ["program"],
  plainRule "v" ["programmed"],
  plainRule "ppart" ["programmed"],
  plainRule "n" ["programs"],
  plainRule "v" ["programs"],
  plainRule "v" ["punish"],
  plainRule "v" ["punished"],
  plainRule "ppart" ["punished"],
  plainRule "v" ["punishes"],
  plainRule "v" ["ran"],
  plainRule "n" ["rat"],
  plainRule "n" ["rats"],
  plainRule "adj" ["red"],
  plainRule "v" ["reinforce"],
  plainRule "v" ["reinforced"],
  plainRule "ppart" ["reinforced"],
  plainRule "v" ["reinforces"],
  plainRule "n" ["room"],
  plainRule "n" ["rooms"],
  plainRule "v" ["run"],
  plainRule "v" ["runs"],
  plainRule "n" ["scientists"],
  plainRule "pn" ["she"],
  plainRule "pn" ["steve"],
  plainRule "pn" ["stuart"],
  plainRule "v" ["suffer"],
  plainRule "v" ["suffered"],
  plainRule "v" ["suffers"],
  plainRule "det" ["that"],
  plainRule "det" ["the"],
  plainRule "pn" ["them"],
  plainRule "det" ["these"],
  plainRule "pn" ["they"],
  plainRule "det" ["those"],
  plainRule "det" ["three"],
  plainRule "det" ["two"],
  plainRule "n" ["undergraduates"],
  plainRule "n" ["universities"],
  plainRule "n" ["university"],
  plainRule "cop" ["was"],
  plainRule "cop" ["were"]]

/-! ### The feature grammar (`features.make_feature_grammar`)

The builder itself is missing from `src/`; its output is documented by the
`compile_grammar` / `compile_lexicon` doctests in `features.py`.  Each rule
carries the constraint descriptor of spec §3 — the pair
`(lhs_keys, [rhs_keys₀, …])` of re-entrant feature names, with names that
appear only on the mother discarded. -/

/-- A lexical production `cat -> word` of the feature grammar (no
re-entrancies, hence an empty descriptor with one slot for the single
daughter). -/
def lexRule (c : Cat) (w : String) : Rule :=
  { lhs := c, rhs := [⟨w, []⟩], constraints := ([], [[]]) }

/-- Modelled from the spec: the compiled feature grammar's rules, from the
`compile_grammar` doctest of `features.py` (e.g.
`S -> Np(case:subj) Vp  {num:[0, 1, 2]}`). -/
def featureRules : List Rule := [
  ⟨⟨"S", []⟩, [⟨"Np", [("case", "subj")]⟩, ⟨"Vp", []⟩],
    (["num"], [["num"], ["num"]])⟩,
  ⟨⟨"S", []⟩, [⟨"S", []⟩, ⟨"conj", []⟩, ⟨"S", []⟩], ([], [[], [], []])⟩,
  ⟨⟨"S", []⟩, [⟨"Np", [("case", "subj")]⟩, ⟨"cop", []⟩, ⟨"ppart", []⟩],
    (["num"], [["num"], ["num"], []])⟩,
  ⟨⟨"S", []⟩, [⟨"Np", [("case", "subj")]⟩, ⟨"cop", []⟩, ⟨"ppart", []⟩,
      ⟨"passmarker", []⟩, ⟨"Np", [("case", "obj")]⟩],
    (["num"], [["num"], ["num"], [], [], []])⟩,
  ⟨⟨"SImp", []⟩, [⟨"Vp", []⟩], ([], [[]])⟩,
  ⟨⟨"Relp", []⟩, [⟨"rp", []⟩, ⟨"S", []⟩], ([], [[], []])⟩,
  ⟨⟨"Np", []⟩, [⟨"det", []⟩, ⟨"Nn", []⟩], (["num"], [["num"], ["num"]])⟩,
  ⟨⟨"Np", []⟩, [⟨"Np", []⟩, ⟨"Pp", []⟩],
    (["case", "num"], [["case", "num"], []])⟩,
  ⟨⟨"Np", []⟩, [⟨"pn", []⟩], (["case", "num"], [["case", "num"]])⟩,
  ⟨⟨"Np", []⟩, [⟨"Np", []⟩, ⟨"Relp", []⟩],
    (["case", "num"], [["case", "num"], []])⟩,
  ⟨⟨"Np", []⟩, [⟨"Np", []⟩, ⟨"conj", []⟩, ⟨"Np", []⟩],
    (["case"], [["case"], [], ["case"]])⟩,
  ⟨⟨"Nn", []⟩, [⟨"n", []⟩], (["num"], [["num"]])⟩,
  ⟨⟨"Nn", []⟩, [⟨"adj", []⟩, ⟨"n", []⟩], (["num"], [[], ["num"]])⟩,
  ⟨⟨"Vp", []⟩, [⟨"v", [("tr", "trans")]⟩, ⟨"Np", [("case", "obj")]⟩],
    (["num"], [["num"], []])⟩,
  ⟨⟨"Vp", []⟩, [⟨"v", [("tr", "intrans")]⟩], (["num"], [["num"]])⟩,
  ⟨⟨"Vp", []⟩, [⟨"cop", []⟩, ⟨"adj", []⟩], (["num"], [["num"], []])⟩,
  ⟨⟨"Vp", []⟩, [⟨"cop", []⟩, ⟨"Pn", []⟩], (["num"], [["num"], []])⟩,
  ⟨⟨"Vp", []⟩, [⟨"v", []⟩, ⟨"Np", []⟩, ⟨"Np", []⟩],
    (["num"], [["num"], [], []])⟩,
  ⟨⟨"Vp", []⟩, [⟨"Vp", []⟩, ⟨"Pp", []⟩], (["num"], [["num"], []])⟩,
  ⟨⟨"Pn", []⟩, [⟨"n", []⟩], ([], [[]])⟩,
  ⟨⟨"Pn", []⟩, [⟨"n", []⟩, ⟨"Pn", []⟩], ([], [[], []])⟩,
  ⟨⟨"Pp", []⟩, [⟨"prep", []⟩, ⟨"Np", [("case", "obj")]⟩], ([], [[], []])⟩]

/-- Modelled from the spec: the compiled feature lexicon, from the
`compile_lexicon` doctest of `features.py` (e.g. `cop(num:pl) -> are`;
binding lists written key-sorted). -/
def featureLexicon : List Rule := [
  lexRule ⟨"adj", []⟩ "big", lexRule ⟨"adj", []⟩ "blue",
  lexRule ⟨"adj", []⟩ "east", lexRule ⟨"adj", []⟩ "enormous",
  lexRule ⟨"adj", []⟩ "green", lexRule ⟨"adj", []⟩ "little",
  lexRule ⟨"adj", []⟩ "red",
  lexRule ⟨"conj", []⟩ "and", lexRule ⟨"conj", []⟩ "or",
  lexRule ⟨"cop", [("num", "pl")]⟩ "are", lexRule ⟨"cop", [("num", "pl")]⟩ "were",
  lexRule ⟨"cop", [("num", "sing")]⟩ "is", lexRule ⟨"cop", [("num", "sing")]⟩ "was",
  lexRule ⟨"det", []⟩ "the",
  lexRule ⟨"det", [("num", "pl")]⟩ "fifty", lexRule ⟨"det", [("num", "pl")]⟩ "four",
  lexRule ⟨"det", [("num", "pl")]⟩ "these", lexRule ⟨"det", [("num", "pl")]⟩ "those",
  lexRule ⟨"det", [("num", "pl")]⟩ "three", lexRule ⟨"det", [("num", "pl")]⟩ "two",
  lexRule ⟨"det", [("num", "sing")]⟩ "a", lexRule ⟨"det", [("num", "sing")]⟩ "one",
  lexRule ⟨"det", [("num", "sing")]⟩ "that",
  lexRule ⟨"md", []⟩ "would",
  lexRule ⟨"n", []⟩ "sheep",
  lexRule ⟨"n", [("num", "pl")]⟩ "boys", lexRule ⟨"n", [("num", "pl")]⟩ "cages",
  lexRule ⟨"n", [("num", "pl")]⟩ "computers", lexRule ⟨"n", [("num", "pl")]⟩ "directors",
  lexRule ⟨"n", [("num", "pl")]⟩ "girls", lexRule ⟨"n", [("num", "pl")]⟩ "micros",
  lexRule ⟨"n", [("num", "pl")]⟩ "movies", lexRule ⟨"n", [("num", "pl")]⟩ "ones",
  lexRule ⟨"n", [("num", "pl")]⟩ "pdp11s", lexRule ⟨"n", [("num", "pl")]⟩ "pigeons",
  lexRule ⟨"n", [("num", "pl")]⟩ "programs", lexRule ⟨"n", [("num", "pl")]⟩ "rats",
  lexRule ⟨"n", [("num", "pl")]⟩ "rooms", lexRule ⟨"n", [("num", "pl")]⟩ "scientists",
  lexRule ⟨"n", [("num", "pl")]⟩ "undergraduates",
  lexRule ⟨"n", [("num", "pl")]⟩ "universities",
  lexRule ⟨"n", [("num", "sing")]⟩ "ball", lexRule ⟨"n", [("num", "sing")]⟩ "boy",
  lexRule ⟨"n", [("num", "sing")]⟩ "cage", lexRule ⟨"n", [("num", "sing")]⟩ "chris",
  lexRule ⟨"n", [("num", "sing")]⟩ "clint", lexRule ⟨"n", [("num", "sing")]⟩ "computer",
  lexRule ⟨"n", [("num", "sing")]⟩ "director",
  lexRule ⟨"n", [("num", "sing")]⟩ "eastwood",
  lexRule ⟨"n", [("num", "sing")]⟩ "girl", lexRule ⟨"n", [("num", "sing")]⟩ "house",
  lexRule ⟨"n", [("num", "sing")]⟩ "micro", lexRule ⟨"n", [("num", "sing")]⟩ "movie",
  lexRule ⟨"n", [("num", "sing")]⟩ "one", lexRule ⟨"n", [("num", "sing")]⟩ "pdp11",
  lexRule ⟨"n", [("num", "sing")]⟩ "pigeon", lexRule ⟨"n", [("num", "sing")]⟩ "program",
  lexRule ⟨"n", [("num", "sing")]⟩ "rat", lexRule ⟨"n", [("num", "sing")]⟩ "rector",
  lexRule ⟨"n", [("num", "sing")]⟩ "room",
  lexRule ⟨"n", [("num", "sing")]⟩ "university",
  lexRule ⟨"n", [("num", "sing")]⟩ "wood",
  lexRule ⟨"passmarker", []⟩ "by",
  lexRule ⟨"pn", [("num", "sing")]⟩ "me", lexRule ⟨"pn", [("num", "sing")]⟩ "mic",
  lexRule ⟨"pn", [("num", "sing")]⟩ "one", lexRule ⟨"pn", [("num", "sing")]⟩ "steve",
  lexRule ⟨"pn", [("num", "sing")]⟩ "stuart",
  lexRule ⟨"pn", [("case", "obj"), ("num", "pl")]⟩ "them",
  lexRule ⟨"pn", [("case", "obj"), ("num", "sing")]⟩ "her",
  lexRule ⟨"pn", [("case", "obj"), ("num", "sing")]⟩ "him",
  lexRule ⟨"pn", [("case", "subj"), ("num", "pl")]⟩ "they",
  lexRule ⟨"pn", [("case", "subj"), ("num", "sing")]⟩ "he",
  lexRule ⟨"pn", [("case", "subj"), ("num", "sing")]⟩ "she",
  lexRule ⟨"ppart", []⟩ "bitten", lexRule ⟨"ppart", []⟩ "caged",
  lexRule ⟨"ppart", []⟩ "hit", lexRule ⟨"ppart", []⟩ "programmed",
  lexRule ⟨"ppart", []⟩ "punished", lexRule ⟨"ppart", []⟩ "reinforced",
  lexRule ⟨"prep", []⟩ "by", lexRule ⟨"prep", []⟩ "in", lexRule ⟨"prep", []⟩ "on",
  lexRule ⟨"rp", [("rptype", "loc")]⟩ "where",
  lexRule ⟨"rp", [("rptype", "tmp")]⟩ "when",
  lexRule ⟨"v", [("tr", "ditrans")]⟩ "show",
  lexRule ⟨"v", [("tr", "intrans")]⟩ "ran",
  lexRule ⟨"v", [("tr", "intrans")]⟩ "suffered",
  lexRule ⟨"v", [("tr", "trans")]⟩ "caged", lexRule ⟨"v", [("tr", "trans")]⟩ "direct",
  lexRule ⟨"v", [("tr", "trans")]⟩ "dye", lexRule ⟨"v", [("tr", "trans")]⟩ "hit",
  lexRule ⟨"v", [("tr", "trans")]⟩ "programmed",
  lexRule ⟨"v", [("tr", "trans")]⟩ "punished",
  lexRule ⟨"v", [("tr", "trans")]⟩ "reinforced",
  lexRule ⟨"v", [("num", "pl"), ("tr", "intrans")]⟩ "run",
  lexRule ⟨"v", [("num", "pl"), ("tr", "intrans")]⟩ "suffer",
  lexRule ⟨"v", [("num", "pl"), ("tr", "trans")]⟩ "cage",
  lexRule ⟨"v", [("num", "pl"), ("tr", "trans")]⟩ "program",
  lexRule ⟨"v", [("num", "pl"), ("tr", "trans")]⟩ "punish",
  lexRule ⟨"v", [("num", "pl"), ("tr", "trans")]⟩ "reinforce",
  lexRule ⟨"v", [("num", "s"), ("tr", "trans")]⟩ "reinforces",
  lexRule ⟨"v", [("num", "sing"), ("tr", "intrans")]⟩ "runs",
  lexRule ⟨"v", [("num", "sing"), ("tr", "intrans")]⟩ "suffers",
  lexRule ⟨"v", [("num", "sing"), ("tr", "trans")]⟩ "cages",
  lexRule ⟨"v", [("num", "sing"), ("tr", "trans")]⟩ "hits",
  lexRule ⟨"v", [("num", "sing"), ("tr", "trans")]⟩ "programs",
  lexRule ⟨"v", [("num", "sing"), ("tr", "trans")]⟩ "punishes"]

/-- Modelled from the spec: `make_feature_grammar()` — the feature rules
followed by the feature lexicon. -/
def featureGrammar : List Rule :=
  featureRules ++ featureLexicon

/-! ### Concrete scenarios and instrumented quantities -/

/-- A stored complete edge with a recorded predecessor route, about to be
replaced by a strictly more general incoming edge. -/
def c3p : Edge := ⟨⟨"X", [("a", "1")]⟩, 0, 0, [], ([], [])⟩

/-- The strictly more general incoming edge. -/
def c3e : Edge := ⟨⟨"X", []⟩, 0, 0, [], ([], [])⟩

/-- The predecessor recorded for `c3p`. -/
def c3c : Edge := ⟨⟨"w", []⟩, 0, 0, [], ([], [])⟩

/-- A feature-mode chart holding `c3p` in `completes[0]` with
`prev[c3p] = {c3c}`. -/
def c3chart : Chart :=
  { usingFeatures := true, grammar := [], partials := [[]],
    completes := [[c3p]], prev := [(0, [(c3p, [c3c])])], agenda := [] }

/-- The push-or-skip test of one `spawn` step: the rule's first daughter is
compatible with the left corner and no chart-equal edge is stored in
`partials[i]`. -/
def spawnTest (lc : Cat) (i : Nat) (ch : Chart) (r : Rule) : Bool :=
  match r.rhs with
  | [] => false
  | r₀ :: _ =>
    ch.compat r₀ lc && !memberChart (bucketGet ch.partials i) (spawnEdge r i)

/-- The edges one `spawn` call pushes, in grammar order. -/
def spawnListOn (lc : Cat) (i : Nat) (ch : Chart) (rs : List Rule) :
    List Edge :=
  (rs.filter (spawnTest lc i ch)).map fun r => spawnEdge r i

/-- The edges `spawn(lc, i)` pushes, in grammar order. -/
def spawnList (ch : Chart) (lc : Cat) (i : Nat) : List Edge :=
  spawnListOn lc i ch ch.grammar

/-- The rule and the bucket behind `c4chart`'s scenario. -/
def c4rule : Rule :=
  ⟨⟨"S", [("num", "pl")]⟩, [⟨"Np", [("num", "pl")]⟩], (["num"], [["num"]])⟩

/-- A strictly more general partial edge already stored in `partials[0]`. -/
def c4p : Edge := ⟨⟨"S", []⟩, 0, 0, [⟨"Np", []⟩], ([], [[]])⟩

/-- A feature-mode chart whose `partials[0]` holds `c4p`. -/
def c4chart : Chart :=
  { usingFeatures := true, grammar := [c4rule], partials := [[c4p]],
    completes := [[]], prev := [], agenda := [] }

/-- The left corner triggering `c4rule`. -/
def c4lc : Cat := ⟨"Np", [("num", "pl")]⟩

/-- A bucket with no two chart-equal members. -/
def NoDupBucket (b : List Edge) : Prop :=
  b.Pairwise fun x y => Edge.chartEq x y = false

/-- Every bucket of the chart is duplicate-free under chart equality. -/
def BucketsDedup (ch : Chart) : Prop :=
  (∀ b ∈ ch.completes, NoDupBucket b) ∧ ∀ b ∈ ch.partials, NoDupBucket b

/-- A grammar driving the loop into a bucket that keeps a strictly less
general edge: a bare `X` rule after two incomparably featured variants. -/
def c7grammar : List Rule := [
  ⟨⟨"X", []⟩, [⟨"w", []⟩], ([], [[]])⟩,
  ⟨⟨"X", [("a", "1")]⟩, [⟨"w", []⟩], ([], [[]])⟩,
  ⟨⟨"X", [("b", "1")]⟩, [⟨"w", []⟩], ([], [[]])⟩]

/-- The feature-mode chart seeded with the one-word input `w` over
`c7grammar`. -/
def c7chart : Chart := linearChart true c7grammar ["w"]

/-- Some bucket member is strictly less general than another member of the
same bucket. -/
def bucketSubsumedPair (b : List Edge) : Bool :=
  b.any fun x => b.any fun y => x.less_general y

/-- The Catalan-series doctest input: `"the pigeons are punished"` followed
by `k` copies of `"and they suffer"`. -/
def catalanInput (k : Nat) : List String :=
  ["the", "pigeons", "are", "punished"] ++
    (List.replicate k ["and", "they", "suffer"]).flatten

/-- Run the parser on `catalanInput k` over the plain English grammar, then
trace the solutions: the total analysis count, whether the memo table
satisfies the counting recurrence pointwise, and whether the agenda emptied.
-/
def catalanResult (k : Nat) : Option (Nat × Bool × Bool) := do
  let ch ← (linearChart false englishGRAMMAR (catalanInput k)).run 500
  let (t, memo) ← ch.traceTotal ⟨"S", []⟩ 50
  pure (t, memoRecurrenceOK ch memo, ch.agenda.isEmpty)

/-- The feature-mode chart seeded with the input `["the", "sheep", "suffer"]`.
-/
def sheepChart : Chart := linearChart true featureGrammar ["the", "sheep", "suffer"]

/-- The result of a Python attribute read of `words.final_state` inside
`seed_agenda`: on `LinearWords` the name is a `@property`, so the read
yields the `int`; on `DemoLatticeWords` it is a plain method, so the read
yields the bound method object itself. -/
inductive FinalStateAttr where
  | intval (n : Nat)
  | boundMethod (f : Unit → Nat)

/-- An input source as `seed_agenda` consumes it: the `final_state`
attribute and the arc enumeration (`arcs()`). -/
structure InputSource where
  final_state : FinalStateAttr
  arcs : List (Nat × String × Nat)

/-- `LinearWords(words)`: the `final_state` property yields `len(words)`
and `arcs()` enumerates `(i, wᵢ, i+1)`. -/
def LinearWords (words : List String) : InputSource :=
  ⟨.intval words.length, linearArcs words⟩

/-- `lattice.demo_arcs`: the renumbered FSM of the demo word lattice. -/
def demo_arcs : List (Nat × String × Nat) := [
  (0, "show", 1), (1, "me", 2), (2, "a", 3), (3, "movie", 4),
  (4, "where", 5), (5, "the", 6), (6, "director", 9), (6, "direct", 7),
  (6, "dye", 8), (7, "or", 9), (8, "rector", 9), (9, "is", 10),
  (10, "clint", 11), (11, "eastwood", 14), (11, "is", 12), (11, "east", 12),
  (11, "is", 13), (12, "wood", 14), (13, "would", 14)]

/-- `DemoLatticeWords(demo_arcs)`: `final_state` is a plain method
(returning `self._arcs[-1][-1]`), so the attribute read sees the bound
method, not its value. -/
def DemoLatticeWords : InputSource :=
  ⟨.boundMethod fun _ => ((demo_arcs.getLast?).map fun a => a.2.2).getD 0,
   demo_arcs⟩

/-- The FSM contract's final-state value of an input source: the `int` a
`final_state()` call would return. -/
def fsmContractValue (ws : InputSource) : Nat :=
  match ws.final_state with
  | .intval n => n
  | .boundMethod f => f ()

/-- `Chart.seed_agenda` as written: `final_state = words.final_state` reads
the attribute and immediately computes `final_state + 1` to size the bucket
arrays; an `int` value proceeds, while a bound method makes the addition
raise `TypeError` before any seeding (`none`). -/
def seed_agenda (usingFeatures : Bool) (grammar : List Rule)
    (words : InputSource) : Option Chart :=
  match words.final_state with
  | .intval n => some (seedChart usingFeatures grammar n words.arcs)
  | .boundMethod _ => none

/-! ### Finiteness data for the termination argument -/

/-- All lists of length at most `n` with elements drawn from `xs`. -/
def listsUpTo {α : Type} : Nat → List α → List (List α)
  | 0, _ => [[]]
  | n + 1, xs => [] :: (xs.flatMap fun x => (listsUpTo n xs).map fun l => x :: l)

/-- All pairs over two string lists. -/
def allPairs (K V : List String) : List (String × String) :=
  K.flatMap fun k => V.map fun v => (k, v)

/-- The finite data a chart run draws its edges from: the category names,
the feature names and values that can ever occur, the last FSM state, and
the longest rule right-hand side. -/
structure EdgeUniverse where
  names : List String
  fkeys : List String
  fvals : List String
  lastState : Nat
  maxLen : Nat

/-- A binding list over the universe: strictly key-sorted (the
representation invariant of the dict-backed feature maps), names from
`fkeys`, values from `fvals`. -/
def BindOK (U : EdgeUniverse) (fs : List (String × String)) : Prop :=
  (fs.map Prod.fst).Pairwise (· < ·) ∧
    ∀ p ∈ fs, p.1 ∈ U.fkeys ∧ p.2 ∈ U.fvals

/-- A category over the universe. -/
def CatOK (U : EdgeUniverse) (c : Cat) : Prop :=
  c.cat ∈ U.names ∧ BindOK U c.features

/-- A constraint descriptor over the universe. -/
def ConstrOK (U : EdgeUniverse) (cs : Constr) : Prop :=
  (∀ k ∈ cs.1, k ∈ U.fkeys) ∧ ∀ l ∈ cs.2, ∀ k ∈ l, k ∈ U.fkeys

/-- A needed-list over the universe. -/
def NeededOK (U : EdgeUniverse) (ns : List Cat) : Prop :=
  ns.length ≤ U.maxLen ∧ ∀ c ∈ ns, CatOK U c

/-- An edge over the universe. -/
def EdgeOK (U : EdgeUniverse) (e : Edge) : Prop :=
  CatOK U e.label ∧ e.left ≤ U.lastState ∧ e.right ≤ U.lastState ∧
    NeededOK U e.needed ∧ ConstrOK U e.constraints

/-- A grammar over the universe. -/
def GrammarOK (U : EdgeUniverse) (g : List Rule) : Prop :=
  ∀ r ∈ g, CatOK U r.lhs ∧ (∀ c ∈ r.rhs, CatOK U c) ∧
    r.rhs.length ≤ U.maxLen ∧ ConstrOK U r.constraints

/-- All binding lists over the universe (an over-approximation: every
`BindOK` list occurs in it). -/
def allBindings (U : EdgeUniverse) : List (List (String × String)) :=
  listsUpTo U.fkeys.dedup.length (allPairs U.fkeys U.fvals)

/-- All categories over the universe. -/
def allCats (U : EdgeUniverse) : List Cat :=
  U.names.flatMap fun n => (allBindings U).map fun fs => ⟨n, fs⟩

/-- All needed-lists over the universe. -/
def allNeededs (U : EdgeUniverse) : List (List Cat) :=
  listsUpTo U.maxLen (allCats U)

/-- All values `Edge.key` can take over the universe. -/
def allEdgeKeys (U : EdgeUniverse) : List (Cat × Nat × Nat × List Cat) :=
  (allCats U).flatMap fun c =>
    (List.range (U.lastState + 1)).flatMap fun i =>
      (List.range (U.lastState + 1)).flatMap fun j =>
        (allNeededs U).map fun ns => (c, i, j, ns)

/-- The number of stored edges. -/
def chartSize (ch : Chart) : Nat :=
  (ch.completes.map List.length).sum + (ch.partials.map List.length).sum

/-- An upper bound for `chartSize` along a run: every bucket holds pairwise
chart-distinct edges whose keys lie in `allEdgeKeys`. -/
def chartCapacity (U : EdgeUniverse) (ch : Chart) : Nat :=
  (ch.completes.length + ch.partials.length) * (allEdgeKeys U).length

/-- The loop invariant of the driver: buckets are duplicate-free, every
stored or pending edge lies in the universe, the grammar lies in the
universe, and the bucket arrays cover every FSM state. -/
def ChartOK (U : EdgeUniverse) (ch : Chart) : Prop :=
  BucketsDedup ch ∧
    (∀ b ∈ ch.completes, ∀ e ∈ b, EdgeOK U e) ∧
    (∀ b ∈ ch.partials, ∀ e ∈ b, EdgeOK U e) ∧
    (∀ e ∈ ch.agenda, EdgeOK U e) ∧
    GrammarOK U ch.grammar ∧
    U.lastState < ch.completes.length ∧ U.lastState < ch.partials.length

/-- The universe generated by a grammar and an arc set. -/
def mkUniverse (g : List Rule) (arcs : List (Nat × String × Nat)) (N : Nat) :
    EdgeUniverse :=
  { names := (g.flatMap fun r => (r.lhs :: r.rhs).map Cat.cat) ++
      arcs.map fun a => a.2.1
    fkeys := g.flatMap fun r =>
      ((r.lhs :: r.rhs).flatMap fun c => c.features.map Prod.fst) ++
        (r.constraints.1 ++ r.constraints.2.flatten)
    fvals := g.flatMap fun r =>
      (r.lhs :: r.rhs).flatMap fun c => c.features.map Prod.snd
    lastState := N
    maxLen := g.foldr (fun r m => max r.rhs.length m) 0 }

/-! ### Helper lemmas -/

theorem List.set_getD_self {α : Type} (l : List α) (i : Nat) (d : α)
    (h : i < l.length) : l.set i (l.getD i d) = l := by
  induction l generalizing i with
  | nil => simp at h
  | cons a as ih =>
    cases i with
    | zero => simp [List.getD]
    | succ n =>
      have hn : n < as.length := by simpa using h
      simp only [List.set, List.getD_cons_succ]
      rw [ih n hn]

theorem bucketSet_bucketGet (bs : List (List Edge)) (i : Nat)
    (h : i < bs.length) : bucketSet bs i (bucketGet bs i) = bs :=
  List.set_getD_self bs i [] h

/-- The four components `Edge.__eq__` and `Edge.__hash__` look at. -/
theorem Edge.key_ext {e e' : Edge} (h : e.key = e'.key) :
    e.label = e'.label ∧ e.left = e'.left ∧ e.right = e'.right ∧
      e.needed = e'.needed := by
  simp only [Edge.key, Prod.mk.injEq] at h
  exact ⟨h.1, h.2.1, h.2.2.1, h.2.2.2⟩

theorem Edge.chartEq_congr_right {e e' : Edge} (h : e.key = e'.key)
    (x : Edge) : Edge.chartEq x e = Edge.chartEq x e' := by
  obtain ⟨h₁, h₂, h₃, h₄⟩ := Edge.key_ext h
  simp only [Edge.chartEq, h₁, h₂, h₃, h₄]

/-- `membership_check` answers `(true, bucket)` for a present edge. -/
theorem membership_check_present (ch : Chart) (e : Edge) (b : List Edge)
    (h : memberChart b e = true) : ch.membership_check e b = (true, b) := by
  simp [Chart.membership_check, h]

/-- `mcScan` ignores a prefix of members incomparable with `e`. -/
theorem mcScan_skip (e : Edge) (prev : List Edge) :
    ∀ xs rest,
      (∀ q ∈ xs, e.less_general q = false ∧ q.less_general e = false) →
      mcScan e prev (xs ++ rest) = mcScan e prev rest := by
  intro xs
  induction xs with
  | nil => simp
  | cons q qs ih =>
    intro rest h
    have hq := h q (List.mem_cons_self q qs)
    simp only [List.cons_append, mcScan, hq.1, hq.2, Bool.false_eq_true,
      if_false]
    exact ih rest fun x hx => h x (List.mem_cons_of_mem q hx)

/-! ### Claim C1 -/

/-- **C1.**  With features enabled, parsing `["the", "sheep", "suffer"]`
runs to completion without error (the agenda empties within the fuel), and
the chart holds exactly one solution under the top category `S`; its label
is `S` with the binding `num = pl`, percolated up from the plural verb
reading, and its span is the whole input. -/
theorem C1_sheep_single_solution :
    (Chart.run 60 sheepChart).map
      (fun ch => (ch.agenda.isEmpty, (ch.solutions ⟨"S", []⟩).map Edge.key)) =
      some (true, [(⟨"S", [("num", "pl")]⟩, 0, 3, [])]) := by decide

/-! ### Claim C2 -/

/-- **C2.**  `membership_check(e, S)` implements the five-case membership
discipline.  Present (chart equivalence): skip, bucket unchanged.  Absent
with features disabled: insert signal, bucket unchanged.  With features, at
the first comparable member `p` (all earlier members being incomparable):
if `e` is strictly less general, skip with the bucket unchanged; if `p` is
strictly less general, signal presence with `p` replaced by `e`.  When no
member is comparable and `e` is absent: insert signal, bucket unchanged.
(`incorporate` runs this against `completes[e.left]` for complete edges and
against `partials[e.right]` for partial ones.) -/
theorem C2_membership_five_cases :
    ∀ (ch : Chart) (e : Edge) (b : List Edge),
      (memberChart b e = true → ch.membership_check e b = (true, b)) ∧
      (ch.usingFeatures = false → memberChart b e = false →
        ch.membership_check e b = (false, b)) ∧
      (ch.usingFeatures = true → memberChart b e = false →
        ∀ xs p ys, b = xs ++ p :: ys →
          (∀ q ∈ xs, e.less_general q = false ∧ q.less_general e = false) →
          (e.less_general p = true → ch.membership_check e b = (true, b)) ∧
          (e.less_general p = false → p.less_general e = true →
            ch.membership_check e b = (true, removeChart b p ++ [e]))) ∧
      (ch.usingFeatures = true → memberChart b e = false →
        (∀ q ∈ b, e.less_general q = false ∧ q.less_general e = false) →
        ch.membership_check e b = (false, b)) := by
  intro ch e b
  refine ⟨fun h => membership_check_present ch e b h, ?_, ?_, ?_⟩
  · intro huf habs
    simp [Chart.membership_check, habs, huf]
  · intro huf habs xs p ys hb hxs
    subst hb
    constructor
    · intro hlg
      simp only [Chart.membership_check, habs, Bool.false_eq_true, if_false,
        huf, Bool.not_true]
      rw [mcScan_skip e _ xs (p :: ys) hxs]
      simp [mcScan, hlg]
    · intro hlg hgl
      simp only [Chart.membership_check, habs, Bool.false_eq_true, if_false,
        huf, Bool.not_true]
      rw [mcScan_skip e _ xs (p :: ys) hxs]
      simp [mcScan, hlg, hgl]
  · intro huf habs hall
    simp only [Chart.membership_check, habs, Bool.false_eq_true, if_false,
      huf, Bool.not_true]
    have : ∀ l, (∀ q ∈ l, e.less_general q = false ∧ q.less_general e = false) →
        mcScan e b l = (false, b) := by
      intro l
      induction l with
      | nil => intro _; rfl
      | cons q qs ih =>
        intro h
        have hq := h q (List.mem_cons_self q qs)
        simp only [mcScan, hq.1, hq.2, Bool.false_eq_true, if_false]
        exact ih fun x hx => h x (List.mem_cons_of_mem q hx)
    exact this b hall

/-- Concrete instantiations of all five cases of
`C2_membership_five_cases`. -/
theorem C2_witness :
    (({ usingFeatures := true, grammar := [], partials := [], completes := [],
        prev := [], agenda := [] : Chart }).membership_check
      ⟨⟨"A", []⟩, 0, 1, [], (["z"], [])⟩ [Edge.mkDef ⟨"A", []⟩ 0 1 []] =
        (true, [Edge.mkDef ⟨"A", []⟩ 0 1 []])) ∧
    (({ usingFeatures := false, grammar := [], partials := [], completes := [],
        prev := [], agenda := [] : Chart }).membership_check
      (Edge.mkDef ⟨"B", []⟩ 0 1 []) [Edge.mkDef ⟨"A", []⟩ 0 1 []] =
        (false, [Edge.mkDef ⟨"A", []⟩ 0 1 []])) ∧
    (({ usingFeatures := true, grammar := [], partials := [], completes := [],
        prev := [], agenda := [] : Chart }).membership_check
      (Edge.mkDef ⟨"A", [("num", "pl")]⟩ 0 1 []) [Edge.mkDef ⟨"A", []⟩ 0 1 []] =
        (true, [Edge.mkDef ⟨"A", []⟩ 0 1 []])) ∧
    (({ usingFeatures := true, grammar := [], partials := [], completes := [],
        prev := [], agenda := [] : Chart }).membership_check
      (Edge.mkDef ⟨"A", []⟩ 0 1 []) [Edge.mkDef ⟨"A", [("num", "pl")]⟩ 0 1 []] =
        (true, [Edge.mkDef ⟨"A", []⟩ 0 1 []])) ∧
    (({ usingFeatures := true, grammar := [], partials := [], completes := [],
        prev := [], agenda := [] : Chart }).membership_check
      (Edge.mkDef ⟨"B", []⟩ 0 1 []) [Edge.mkDef ⟨"A", []⟩ 0 1 []] =
        (false, [Edge.mkDef ⟨"A", []⟩ 0 1 []])) := by
  refine ⟨?_, ?_, ?_, ?_, ?_⟩
  · exact (C2_membership_five_cases _ _ _).1 (by decide)
  · exact (C2_membership_five_cases _ _ _).2.1 rfl (by decide)
  · exact ((C2_membership_five_cases _ _ _).2.2.1 rfl (by decide)
      [] _ [] rfl (by intro q hq; cases hq)).1 (by decide)
  · exact ((C2_membership_five_cases _ _ _).2.2.1 rfl (by decide)
      [] _ [] rfl (by intro q hq; cases hq)).2 (by decide) (by decide)
  · exact (C2_membership_five_cases _ _ _).2.2.2 rfl (by decide)
      (by decide)

/-! ### Claim C3 -/

/-- **C3, counterexample.**  Incorporating `c3e` replaces `c3p` in the
bucket (membership_check's generalisation case), but the predecessor set of
the replaced edge is *not* transferred: `prev[c3e]` is empty afterwards and
the route `c3c` stays keyed by the dropped `c3p` — contradicting the claim
that replacement transfers `prev[p] → prev[e]`. -/
theorem C3_counterexample :
    Edge.less_general c3p c3e = true ∧
    (c3chart.incorporate c3e).map
        (fun ch => (bucketGet ch.completes 0, ch.prevGet c3e, ch.prevGet c3p)) =
      some ([c3e], [], [c3c]) := by decide

/-- **C3, amended.**  Whenever `membership_check` signals presence — in
particular whenever it replaces a strictly less general stored edge —
`incorporate` leaves the `prev` map (and the agenda) completely untouched:
no predecessor route is transferred from the replaced edge to its
replacement. -/
theorem C3_amended_no_transfer :
    ∀ (ch : Chart) (e : Edge),
      (e.iscomplete = true →
        (ch.membership_check e (bucketGet ch.completes e.left)).1 = true →
        (ch.incorporate e).map Chart.prev = some ch.prev ∧
        (ch.incorporate e).map Chart.agenda = some ch.agenda) ∧
      (e.ispartialB = true →
        (ch.membership_check e (bucketGet ch.partials e.right)).1 = true →
        (ch.incorporate e).map Chart.prev = some ch.prev ∧
        (ch.incorporate e).map Chart.agenda = some ch.agenda) := by
  intro ch e
  constructor
  · intro hc hflag
    unfold Chart.incorporate
    rw [hc, if_pos rfl]
    rcases hmc : ch.membership_check e (bucketGet ch.completes e.left) with
      ⟨flag, bucket⟩
    rw [hmc] at hflag
    simp only at hflag
    subst hflag
    simp
  · intro hp hflag
    have hc : e.iscomplete = false := by
      simp only [Edge.ispartialB] at hp
      simp only [Edge.iscomplete]
      cases h : e.needed.isEmpty with
      | false => rfl
      | true => rw [h] at hp; simp at hp
    unfold Chart.incorporate
    rw [hc, if_neg (by simp), hp, if_pos rfl]
    rcases hmc : ch.membership_check e (bucketGet ch.partials e.right) with
      ⟨flag, bucket⟩
    rw [hmc] at hflag
    simp only at hflag
    subst hflag
    simp

/-- Concrete instantiation of `C3_amended_no_transfer` at the replacement
scenario of `c3chart`. -/
theorem C3_witness :
    (c3chart.incorporate c3e).map Chart.prev = some c3chart.prev ∧
    (c3chart.incorporate c3e).map Chart.agenda = some c3chart.agenda :=
  (C3_amended_no_transfer c3chart c3e).1 (by decide) (by decide)

/-! ### Claim C4 -/

theorem Edge.chartEq_iff {a b : Edge} :
    Edge.chartEq a b = true ↔
      a.left = b.left ∧ a.right = b.right ∧ a.label = b.label ∧
        a.needed = b.needed := by
  simp [Edge.chartEq, and_assoc]

theorem Edge.chartEq_refl (a : Edge) : Edge.chartEq a a = true := by
  simp [Edge.chartEq]

theorem Edge.chartEq_symm {a b : Edge} (h : Edge.chartEq a b = true) :
    Edge.chartEq b a = true := by
  rw [Edge.chartEq_iff] at h ⊢
  exact ⟨h.1.symm, h.2.1.symm, h.2.2.1.symm, h.2.2.2.symm⟩

theorem Edge.chartEq_trans {a b c : Edge} (h₁ : Edge.chartEq a b = true)
    (h₂ : Edge.chartEq b c = true) : Edge.chartEq a c = true := by
  rw [Edge.chartEq_iff] at h₁ h₂ ⊢
  exact ⟨h₁.1.trans h₂.1, h₁.2.1.trans h₂.2.1, h₁.2.2.1.trans h₂.2.2.1,
    h₁.2.2.2.trans h₂.2.2.2⟩

/-- Resetting the entry of an edge's equivalence class within one bucket
makes it read as the empty set. -/
theorem prevFindB_prevResetB_eq (b : List (Edge × List Edge)) (x e : Edge)
    (hx : Edge.chartEq x e = true) : prevFindB (prevResetB b x) e = [] := by
  induction b with
  | nil => simp [prevResetB, prevFindB, List.find?, hx]
  | cons kv rest ih =>
    obtain ⟨k, s⟩ := kv
    by_cases hk : Edge.chartEq k x = true
    · have hke : Edge.chartEq k e = true := Edge.chartEq_trans hk hx
      simp [prevResetB, prevFindB, List.find?, hk, hke]
    · have hk' : Edge.chartEq k x = false := by
        cases h : Edge.chartEq k x with
        | false => rfl
        | true => exact absurd h hk
      have hke : Edge.chartEq k e = false := by
        cases h : Edge.chartEq k e with
        | false => rfl
        | true =>
          exact absurd (Edge.chartEq_trans h (Edge.chartEq_symm hx)) hk
      simpa [prevResetB, prevFindB, List.find?, hk', hke] using ih

/-- Resetting an unrelated edge's entry within one bucket leaves a lookup
unchanged. -/
theorem prevFindB_prevResetB_ne (b : List (Edge × List Edge)) (x e : Edge)
    (hx : Edge.chartEq x e = false) :
    prevFindB (prevResetB b x) e = prevFindB b e := by
  induction b with
  | nil => simp [prevResetB, prevFindB, List.find?, hx]
  | cons kv rest ih =>
    obtain ⟨k, s⟩ := kv
    by_cases hk : Edge.chartEq k x = true
    · have hke : Edge.chartEq k e = false := by
        cases h : Edge.chartEq k e with
        | false => rfl
        | true =>
          have : Edge.chartEq x e = true :=
            Edge.chartEq_trans (Edge.chartEq_symm hk) h
          rw [this] at hx; cases hx
      simp [prevResetB, prevFindB, List.find?, hk, hke]
    · have hk' : Edge.chartEq k x = false := by
        cases h : Edge.chartEq k x with
        | false => rfl
        | true => exact absurd h hk
      by_cases hke : Edge.chartEq k e = true
      · simp [prevResetB, prevFindB, List.find?, hk', hke]
      · have hke' : Edge.chartEq k e = false := by
          cases h : Edge.chartEq k e with
          | false => rfl
          | true => exact absurd h hke
        simpa [prevResetB, prevFindB, List.find?, hk', hke'] using ih

theorem prevReset_cons_eq {k : Nat} {b : List (Edge × List Edge)}
    {rest : PrevMap} {e : Edge} (hk : k = e.left) :
    prevReset ((k, b) :: rest) e = (k, prevResetB b e) :: rest := by
  simp [prevReset, hk]

theorem prevReset_cons_ne {k : Nat} {b : List (Edge × List Edge)}
    {rest : PrevMap} {e : Edge} (hk : k ≠ e.left) :
    prevReset ((k, b) :: rest) e = (k, b) :: prevReset rest e := by
  simp [prevReset, hk]

theorem prevFind_cons_eq {k : Nat} {b : List (Edge × List Edge)}
    {rest : PrevMap} {e : Edge} (hk : k = e.left) :
    prevFind ((k, b) :: rest) e = prevFindB b e := by
  simp [prevFind, List.find?, decide_eq_true_eq, hk]

theorem prevFind_cons_ne {k : Nat} {b : List (Edge × List Edge)}
    {rest : PrevMap} {e : Edge} (hk : k ≠ e.left) :
    prevFind ((k, b) :: rest) e = prevFind rest e := by
  simp only [prevFind, List.find?, decide_eq_false hk]

/-- Resetting the entry of an edge's equivalence class makes it read as the
empty set. -/
theorem prevFind_prevReset_eq (m : PrevMap) (x e : Edge)
    (hx : Edge.chartEq x e = true) : prevFind (prevReset m x) e = [] := by
  have hleft : x.left = e.left := (Edge.chartEq_iff.mp hx).1
  induction m with
  | nil =>
    show prevFind [(x.left, prevResetB [] x)] e = []
    rw [prevFind_cons_eq hleft]
    exact prevFindB_prevResetB_eq [] x e hx
  | cons kb rest ih =>
    obtain ⟨k, b⟩ := kb
    by_cases hk : k = x.left
    · subst hk
      rw [prevReset_cons_eq (e := x) rfl, prevFind_cons_eq hleft]
      exact prevFindB_prevResetB_eq b x e hx
    · have hk' : k ≠ e.left := fun h => hk (h.trans hleft.symm)
      rw [prevReset_cons_ne (e := x) hk, prevFind_cons_ne hk']
      exact ih

/-- Resetting an unrelated edge's entry leaves a lookup unchanged. -/
theorem prevFind_prevReset_ne (m : PrevMap) (x e : Edge)
    (hx : Edge.chartEq x e = false) :
    prevFind (prevReset m x) e = prevFind m e := by
  induction m with
  | nil =>
    show prevFind [(x.left, prevResetB [] x)] e = prevFind [] e
    by_cases hl : x.left = e.left
    · rw [prevFind_cons_eq hl, prevFindB_prevResetB_ne [] x e hx]
      rfl
    · rw [prevFind_cons_ne hl]
  | cons kb rest ih =>
    obtain ⟨k, b⟩ := kb
    by_cases hk : k = x.left
    · subst hk
      rw [prevReset_cons_eq (e := x) rfl]
      by_cases hl : x.left = e.left
      · rw [prevFind_cons_eq hl, prevFind_cons_eq hl]
        exact prevFindB_prevResetB_ne b x e hx
      · rw [prevFind_cons_ne hl, prevFind_cons_ne hl]
    · rw [prevReset_cons_ne (e := x) hk]
      by_cases hke : k = e.left
      · rw [prevFind_cons_eq hke, prevFind_cons_eq hke]
      · rw [prevFind_cons_ne hke, prevFind_cons_ne hke]
        exact ih

theorem spawnStep_fields (lc : Cat) (i : Nat) (c : Chart) (r : Rule) :
    (spawnStep lc i c r).usingFeatures = c.usingFeatures ∧
    (spawnStep lc i c r).partials = c.partials ∧
    (spawnStep lc i c r).completes = c.completes ∧
    (spawnStep lc i c r).grammar = c.grammar := by
  unfold spawnStep
  rcases r.rhs with _ | ⟨r₀, rs⟩
  · exact ⟨rfl, rfl, rfl, rfl⟩
  · simp only
    split
    · split
      · exact ⟨rfl, rfl, rfl, rfl⟩
      · exact ⟨rfl, rfl, rfl, rfl⟩
    · exact ⟨rfl, rfl, rfl, rfl⟩

theorem spawnStep_agenda (lc : Cat) (i : Nat) (c : Chart) (r : Rule) :
    (spawnStep lc i c r).agenda =
      (if spawnTest lc i c r = true then [spawnEdge r i] else []) ++
        c.agenda := by
  have hsl : (spawnEdge r i).left = i := rfl
  rcases hr : r.rhs with _ | ⟨r₀, rs⟩
  · simp [spawnStep, spawnTest, hr]
  · simp only [spawnStep, spawnTest, hr, Chart.somepartialsRight, hsl]
    cases h₁ : c.compat r₀ lc with
    | false => simp
    | true =>
      cases h₂ : memberChart (bucketGet c.partials i) (spawnEdge r i) with
      | true => simp [h₂]
      | false => simp [h₂, Chart.push]

theorem spawnStep_prev (lc : Cat) (i : Nat) (c : Chart) (r : Rule) :
    (spawnStep lc i c r).prev =
      if spawnTest lc i c r = true then prevReset c.prev (spawnEdge r i)
      else c.prev := by
  have hsl : (spawnEdge r i).left = i := rfl
  rcases hr : r.rhs with _ | ⟨r₀, rs⟩
  · simp [spawnStep, spawnTest, hr]
  · simp only [spawnStep, spawnTest, hr, Chart.somepartialsRight, hsl]
    cases h₁ : c.compat r₀ lc with
    | false => simp
    | true =>
      cases h₂ : memberChart (bucketGet c.partials i) (spawnEdge r i) with
      | true => simp [h₂]
      | false => simp [h₂, Chart.push]

/-- `spawnTest` only reads the feature flag and the partial buckets. -/
theorem spawnTest_congr (lc : Cat) (i : Nat) {c c' : Chart}
    (h₁ : c'.usingFeatures = c.usingFeatures) (h₂ : c'.partials = c.partials)
    (r : Rule) : spawnTest lc i c' r = spawnTest lc i c r := by
  unfold spawnTest
  rcases r.rhs with _ | ⟨r₀, rs⟩
  · rfl
  · simp [Chart.compat, h₁, h₂]

theorem spawnListOn_congr (lc : Cat) (i : Nat) {c c' : Chart}
    (h₁ : c'.usingFeatures = c.usingFeatures) (h₂ : c'.partials = c.partials)
    (rs : List Rule) : spawnListOn lc i c' rs = spawnListOn lc i c rs := by
  unfold spawnListOn
  congr 1
  exact List.filter_congr fun r _ => spawnTest_congr lc i h₁ h₂ r

/-- The full effect of the `spawn` fold on the chart's fields. -/
theorem spawn_fold (lc : Cat) (i : Nat) :
    ∀ (rs : List Rule) (c : Chart),
      (rs.foldl (spawnStep lc i) c).usingFeatures = c.usingFeatures ∧
      (rs.foldl (spawnStep lc i) c).partials = c.partials ∧
      (rs.foldl (spawnStep lc i) c).completes = c.completes ∧
      (rs.foldl (spawnStep lc i) c).grammar = c.grammar ∧
      (rs.foldl (spawnStep lc i) c).agenda =
        (spawnListOn lc i c rs).reverse ++ c.agenda := by
  intro rs
  induction rs with
  | nil => intro c; simp [spawnListOn]
  | cons r rest ih =>
    intro c
    obtain ⟨f₁, f₂, f₃, f₄⟩ := spawnStep_fields lc i c r
    obtain ⟨ih₁, ih₂, ih₃, ih₄, ih₅⟩ := ih (spawnStep lc i c r)
    refine ⟨ih₁.trans f₁, ih₂.trans f₂, ih₃.trans f₃, ih₄.trans f₄, ?_⟩
    rw [List.foldl_cons] at *
    rw [ih₅, spawnListOn_congr lc i f₁ f₂ rest, spawnStep_agenda]
    show _ = (spawnListOn lc i c (r :: rest)).reverse ++ c.agenda
    unfold spawnListOn
    by_cases ht : spawnTest lc i c r = true
    · simp [List.filter_cons, ht]
    · have ht' : spawnTest lc i c r = false := by
        cases h : spawnTest lc i c r with
        | false => rfl
        | true => exact absurd h ht
      simp [List.filter_cons, ht']

/-- Once an edge's predecessor entry reads empty, the remaining spawn steps
keep it empty. -/
theorem spawnFold_prevFind_nil (lc : Cat) (i : Nat) :
    ∀ (rs : List Rule) (c : Chart) (e : Edge),
      prevFind c.prev e = [] →
      prevFind ((rs.foldl (spawnStep lc i) c)).prev e = [] := by
  intro rs
  induction rs with
  | nil => intro c e h; simpa using h
  | cons r rest ih =>
    intro c e h
    rw [List.foldl_cons]
    refine ih (spawnStep lc i c r) e ?_
    rw [spawnStep_prev]
    by_cases ht : spawnTest lc i c r = true
    · rw [if_pos ht]
      by_cases hx : Edge.chartEq (spawnEdge r i) e = true
      · exact prevFind_prevReset_eq c.prev (spawnEdge r i) e hx
      · have hx' : Edge.chartEq (spawnEdge r i) e = false := by
          cases hh : Edge.chartEq (spawnEdge r i) e with
          | false => rfl
          | true => exact absurd hh hx
        rw [prevFind_prevReset_ne c.prev (spawnEdge r i) e hx']
        exact h
    · have ht' : spawnTest lc i c r = false := by
        cases hh : spawnTest lc i c r with
        | false => rfl
        | true => exact absurd hh ht
      rw [if_neg (by simp [ht'])]
      exact h

/-- Every edge `spawn` pushes ends up with an empty predecessor set. -/
theorem spawnFold_spawned_prev (lc : Cat) (i : Nat) :
    ∀ (rs : List Rule) (c : Chart) (e : Edge),
      e ∈ spawnListOn lc i c rs →
      prevFind ((rs.foldl (spawnStep lc i) c)).prev e = [] := by
  intro rs
  induction rs with
  | nil => intro c e h; simp [spawnListOn] at h
  | cons r rest ih =>
    intro c e h
    obtain ⟨f₁, f₂, _, _⟩ := spawnStep_fields lc i c r
    unfold spawnListOn at h
    rw [List.filter_cons] at h
    rw [List.foldl_cons]
    by_cases ht : spawnTest lc i c r = true
    · rw [if_pos ht] at h
      simp only [List.map_cons, List.mem_cons] at h
      rcases h with h | h
      · subst h
        refine spawnFold_prevFind_nil lc i rest (spawnStep lc i c r) _ ?_
        rw [spawnStep_prev, if_pos ht]
        exact prevFind_prevReset_eq c.prev _ _ (Edge.chartEq_refl _)
      · refine ih (spawnStep lc i c r) e ?_
        rw [spawnListOn_congr lc i f₁ f₂ rest]
        exact h
    · have ht' : spawnTest lc i c r = false := by
        cases hh : spawnTest lc i c r with
        | false => rfl
        | true => exact absurd hh ht
      rw [if_neg (by simp [ht'])] at h
      refine ih (spawnStep lc i c r) e ?_
      rw [spawnListOn_congr lc i f₁ f₂ rest]
      exact h

theorem spawnEdge_inj {r r' : Rule} {i : Nat}
    (h : spawnEdge r i = spawnEdge r' i) : r = r' := by
  cases r; cases r'
  simp only [spawnEdge, Edge.mk.injEq] at h
  simp [h.1, h.2.2.2.1, h.2.2.2.2]

/-- **C4, counterexample.**  `spawn` suppresses a push only on *chart
equality*: here `partials[0]` already holds an edge strictly more general
than the spawned one (`spawnEdge c4rule 0` is strictly less general than
`c4p`, and no chart-equal edge is present), yet `spawn` still pushes it —
contradicting the claim that an equal *or strictly more general* stored
edge suppresses the push. -/
theorem C4_counterexample :
    Edge.less_general (spawnEdge c4rule 0) c4p = true ∧
    memberChart (bucketGet c4chart.partials 0) (spawnEdge c4rule 0) = false ∧
    (c4chart.spawn c4lc 0).agenda = [spawnEdge c4rule 0] := by decide

/-- **C4, amended.**  `spawn(lc, i)` pushes, for each grammar rule whose
first right-hand daughter is compatible with `lc`, the fresh partial edge
`(label=rule.lhs, left=i, right=i, needed=rule.rhs,
constraints=rule.constraints)`, and it suppresses the push exactly when a
*chart-equal* edge is already present in `partials[i]` (a strictly more
general stored edge does not suppress it); the buckets are untouched and
every pushed edge receives an empty predecessor set in `prev`. -/
theorem C4_amended_spawn :
    ∀ (ch : Chart) (lc : Cat) (i : Nat),
      (ch.spawn lc i).partials = ch.partials ∧
      (ch.spawn lc i).completes = ch.completes ∧
      (ch.spawn lc i).agenda = (spawnList ch lc i).reverse ++ ch.agenda ∧
      (∀ r ∈ ch.grammar, ∀ r₀ rs, r.rhs = r₀ :: rs →
        ch.compat r₀ lc = true →
        memberChart (bucketGet ch.partials i) (spawnEdge r i) = false →
        spawnEdge r i ∈ spawnList ch lc i) ∧
      (∀ r ∈ ch.grammar, ∀ r₀ rs, r.rhs = r₀ :: rs →
        ch.compat r₀ lc = true →
        memberChart (bucketGet ch.partials i) (spawnEdge r i) = true →
        spawnEdge r i ∉ spawnList ch lc i) ∧
      (∀ e ∈ spawnList ch lc i, (ch.spawn lc i).prevGet e = []) := by
  intro ch lc i
  obtain ⟨_, _, _, _, ha⟩ := spawn_fold lc i ch.grammar ch
  refine ⟨(spawn_fold lc i ch.grammar ch).2.1,
    (spawn_fold lc i ch.grammar ch).2.2.1, ha, ?_, ?_, ?_⟩
  · intro r hr r₀ rs hrhs hcompat habs
    unfold spawnList spawnListOn
    refine List.mem_map.mpr ⟨r, List.mem_filter.mpr ⟨hr, ?_⟩, rfl⟩
    unfold spawnTest
    rw [hrhs]
    simp [hcompat, habs]
  · intro r hr r₀ rs hrhs hcompat hpres hmem
    unfold spawnList spawnListOn at hmem
    obtain ⟨r', hr', heq⟩ := List.mem_map.mp hmem
    obtain ⟨_, ht⟩ := List.mem_filter.mp hr'
    have : r' = r := spawnEdge_inj heq
    subst this
    unfold spawnTest at ht
    rw [hrhs] at ht
    simp [hcompat, hpres] at ht
  · intro e he
    exact spawnFold_spawned_prev lc i ch.grammar ch e he

/-- Concrete instantiation of `C4_amended_spawn` at `c4chart`. -/
theorem C4_witness :
    (c4chart.spawn c4lc 0).agenda =
      (spawnList c4chart c4lc 0).reverse ++ c4chart.agenda ∧
    (c4chart.spawn c4lc 0).prevGet (spawnEdge c4rule 0) = [] := by
  refine ⟨(C4_amended_spawn c4chart c4lc 0).2.2.1, ?_⟩
  exact (C4_amended_spawn c4chart c4lc 0).2.2.2.2.2 (spawnEdge c4rule 0)
    (by decide)

/-! ### Claim C5 -/

/-- **C5.**  The demo-lattice parse does not run at all: `seed_agenda`
reads `words.final_state` as an attribute, which on `DemoLatticeWords` is a
plain method, so sizing the buckets raises `TypeError` before any edge is
seeded — no SImp reading is produced.  Had the FSM contract's value been
obtained (`final_state()` returns `14`, the last arc's target), seeding
would allocate `14 + 1` partial and complete buckets and one agenda edge
per arc of the lattice. -/
theorem C5_lattice_seed_typeerror :
    seed_agenda false englishGRAMMAR DemoLatticeWords = none ∧
    fsmContractValue DemoLatticeWords = 14 ∧
    (seed_agenda false englishGRAMMAR (LinearWords ["a"])).isSome = true ∧
    ((seedChart false englishGRAMMAR 14 demo_arcs).partials.length = 15 ∧
     (seedChart false englishGRAMMAR 14 demo_arcs).completes.length = 15 ∧
     (seedChart false englishGRAMMAR 14 demo_arcs).agenda.length = 19) := by
  refine ⟨rfl, rfl, rfl, ?_, ?_, ?_⟩ <;> decide

/-! ### Claim C6 -/

theorem catalanResult_k0 : catalanResult 0 = some (1, true, true) := by decide

theorem catalanResult_k1 : catalanResult 1 = some (1, true, true) := by decide

theorem catalanResult_k2 : catalanResult 2 = some (2, true, true) := by decide

theorem catalanResult_k3 : catalanResult 3 = some (5, true, true) := by decide

theorem catalanResult_k4 : catalanResult 4 = some (14, true, true) := by decide

theorem catalanResult_k5 : catalanResult 5 = some (42, true, true) := by decide

theorem catalanResult_k6 : catalanResult 6 = some (132, true, true) := by decide

theorem catalanResult_k7 : catalanResult 7 = some (429, true, true) := by decide

/-- **C6.**  On `"the pigeons are punished"` followed by `k` copies of
`"and they suffer"` (`k = 0..7`), the driver loop empties the agenda, the
memoised `trace_edges` table satisfies the recurrence `T(e) = 1` when
`prev[e]` is empty and `T(e) = Σ_{c ∈ prev[e]} T(c) · T(sister(e, c))`
otherwise at every memoised edge, and the total count over the S-solutions
is the `k`-th Catalan number `1, 1, 2, 5, 14, 42, 132, 429`. -/
theorem C6_catalan_counts :
    catalanResult 0 = some (1, true, true) ∧
    catalanResult 1 = some (1, true, true) ∧
    catalanResult 2 = some (2, true, true) ∧
    catalanResult 3 = some (5, true, true) ∧
    catalanResult 4 = some (14, true, true) ∧
    catalanResult 5 = some (42, true, true) ∧
    catalanResult 6 = some (132, true, true) ∧
    catalanResult 7 = some (429, true, true) :=
  ⟨catalanResult_k0, catalanResult_k1, catalanResult_k2, catalanResult_k3,
   catalanResult_k4, catalanResult_k5, catalanResult_k6, catalanResult_k7⟩

/-! ### Claim C7 -/

/-- **C7, counterexample.**  Running the incorporation loop from the seeded
`c7chart` to completion (the agenda empties) reaches a chart state in which
a `partials` bucket holds an edge strictly less general than another member
of the same bucket: replacement removes only the *first* strictly less
general member, so when the spawned bare-`X` partial generalises two
incomparable stored partials, one of them survives next to it.  This
contradicts the claimed invariant for reachable states. -/
theorem C7_counterexample :
    (Chart.run 50 c7chart).map
        (fun ch => (ch.agenda.isEmpty, ch.partials.map bucketSubsumedPair)) =
      some (true, [true, false]) := by decide

/-- `membership_check` answers `false` only for an absent edge. -/
theorem mc_false_not_member (ch : Chart) (e : Edge) (b : List Edge)
    (h : (ch.membership_check e b).1 = false) : memberChart b e = false := by
  cases hm : memberChart b e with
  | false => rfl
  | true => rw [membership_check_present ch e b hm] at h; cases h

/-- When `membership_check` answers `false` it returns the bucket
unchanged. -/
theorem mc_false_bucket (ch : Chart) (e : Edge) (b : List Edge)
    (h : (ch.membership_check e b).1 = false) :
    (ch.membership_check e b).2 = b := by
  have hm := mc_false_not_member ch e b h
  unfold Chart.membership_check at h ⊢
  rw [hm] at h ⊢
  simp only [Bool.false_eq_true, if_false] at h ⊢
  cases huf : ch.usingFeatures with
  | false => simp [huf]
  | true =>
    simp only [huf, Bool.not_true, Bool.false_eq_true, if_false] at h ⊢
    have : ∀ l, (mcScan e b l).1 = false → (mcScan e b l).2 = b := by
      intro l
      induction l with
      | nil => intro _; rfl
      | cons p rest ih =>
        intro hl
        unfold mcScan at hl ⊢
        by_cases h₁ : e.less_general p = true
        · rw [if_pos h₁] at hl; cases hl
        · rw [if_neg h₁] at hl ⊢
          by_cases h₂ : p.less_general e = true
          · rw [if_pos h₂] at hl; cases hl
          · rw [if_neg h₂] at hl ⊢
            exact ih hl
    exact this b h

/-- The bucket `membership_check` returns is the old bucket or the old
bucket with one member removed and `e` appended. -/
theorem mc_bucket_cases (ch : Chart) (e : Edge) (b : List Edge) :
    (ch.membership_check e b).2 = b ∨
      ∃ p, (ch.membership_check e b).2 = removeChart b p ++ [e] := by
  unfold Chart.membership_check
  by_cases hm : memberChart b e = true
  · rw [if_pos hm]; exact Or.inl rfl
  · rw [if_neg hm]
    cases huf : ch.usingFeatures with
    | false => exact Or.inl rfl
    | true =>
      simp only [Bool.not_true, Bool.false_eq_true, if_false]
      have : ∀ l, (mcScan e b l).2 = b ∨
          ∃ p, (mcScan e b l).2 = removeChart b p ++ [e] := by
        intro l
        induction l with
        | nil => exact Or.inl rfl
        | cons p rest ih =>
          unfold mcScan
          by_cases h₁ : e.less_general p = true
          · rw [if_pos h₁]; exact Or.inl rfl
          · rw [if_neg h₁]
            by_cases h₂ : p.less_general e = true
            · rw [if_pos h₂]; exact Or.inr ⟨p, rfl⟩
            · rw [if_neg h₂]; exact ih
      exact this b

/-- `membership_check` preserves bucket dedup (for an absent incoming
edge, which is the only case in which it rewrites the bucket). -/
theorem mc_dedup (ch : Chart) (e : Edge) (b : List Edge)
    (hd : NoDupBucket b) : NoDupBucket (ch.membership_check e b).2 := by
  rcases mc_bucket_cases ch e b with h | ⟨p, h⟩
  · rw [h]; exact hd
  · rw [h]
    by_cases hm : memberChart b e = true
    · rw [membership_check_present ch e b hm] at h
      simp only at h
      rw [← h]; exact hd
    · have hm' : memberChart b e = false := by
        cases hh : memberChart b e with
        | false => rfl
        | true => exact absurd hh hm
      unfold NoDupBucket
      rw [List.pairwise_append]
      refine ⟨hd.sublist (List.filter_sublist b), List.pairwise_singleton _ _,
        ?_⟩
      intro x hx y hy
      rw [List.mem_singleton] at hy
      subst hy
      have hxb : x ∈ b := List.mem_of_mem_filter hx
      unfold memberChart at hm'
      have := List.any_eq_false.mp (by simpa using hm') x hxb
      simpa using this

theorem pairPartialStep_fields (e : Edge) (c : Chart) (p : Edge) :
    (pairPartialStep e c p).usingFeatures = c.usingFeatures ∧
    (pairPartialStep e c p).partials = c.partials ∧
    (pairPartialStep e c p).completes = c.completes ∧
    (pairPartialStep e c p).grammar = c.grammar := by
  unfold pairPartialStep
  rcases p.needed with _ | ⟨n₀, nrest⟩
  · exact ⟨rfl, rfl, rfl, rfl⟩
  · simp only
    split <;> exact ⟨rfl, rfl, rfl, rfl⟩

theorem pairCompleteStep_fields (e : Edge) (c : Chart) (x : Edge) :
    (pairCompleteStep e c x).usingFeatures = c.usingFeatures ∧
    (pairCompleteStep e c x).partials = c.partials ∧
    (pairCompleteStep e c x).completes = c.completes ∧
    (pairCompleteStep e c x).grammar = c.grammar := by
  unfold pairCompleteStep
  rcases e.needed with _ | ⟨n₀, nrest⟩
  · exact ⟨rfl, rfl, rfl, rfl⟩
  · simp only
    split <;> exact ⟨rfl, rfl, rfl, rfl⟩

/-- `pairwithpartials` changes only `prev` and the agenda. -/
theorem pairwithpartials_fields (ch : Chart) (ps : List Edge) (e : Edge) :
    (ch.pairwithpartials ps e).usingFeatures = ch.usingFeatures ∧
    (ch.pairwithpartials ps e).partials = ch.partials ∧
    (ch.pairwithpartials ps e).completes = ch.completes ∧
    (ch.pairwithpartials ps e).grammar = ch.grammar := by
  unfold Chart.pairwithpartials
  induction ps generalizing ch with
  | nil => exact ⟨rfl, rfl, rfl, rfl⟩
  | cons p rest ih =>
    rw [List.foldl_cons]
    obtain ⟨s₁, s₂, s₃, s₄⟩ := pairPartialStep_fields e ch p
    obtain ⟨i₁, i₂, i₃, i₄⟩ := ih (pairPartialStep e ch p)
    exact ⟨i₁.trans s₁, i₂.trans s₂, i₃.trans s₃, i₄.trans s₄⟩

/-- `pairwithcompletes` changes only `prev` and the agenda. -/
theorem pairwithcompletes_fields (ch : Chart) (e : Edge) (cs : List Edge) :
    (ch.pairwithcompletes e cs).usingFeatures = ch.usingFeatures ∧
    (ch.pairwithcompletes e cs).partials = ch.partials ∧
    (ch.pairwithcompletes e cs).completes = ch.completes ∧
    (ch.pairwithcompletes e cs).grammar = ch.grammar := by
  unfold Chart.pairwithcompletes
  induction cs generalizing ch with
  | nil => exact ⟨rfl, rfl, rfl, rfl⟩
  | cons c rest ih =>
    rw [List.foldl_cons]
    obtain ⟨s₁, s₂, s₃, s₄⟩ := pairCompleteStep_fields e ch c
    obtain ⟨i₁, i₂, i₃, i₄⟩ := ih (pairCompleteStep e ch c)
    exact ⟨i₁.trans s₁, i₂.trans s₂, i₃.trans s₃, i₄.trans s₄⟩

/-- `incorporate` preserves the bucket-dedup invariant. -/
theorem bucketGet_mem_or_nil (bs : List (List Edge)) (i : Nat) :
    bucketGet bs i ∈ bs ∨ bucketGet bs i = [] := by
  unfold bucketGet
  by_cases h : i < bs.length
  · left
    rw [List.getD_eq_getElem bs [] h]
    exact List.getElem_mem h
  · right
    exact List.getD_eq_default bs [] (by omega)

theorem bucketGet_dedup (bs : List (List Edge)) (i : Nat)
    (hd : ∀ b ∈ bs, NoDupBucket b) : NoDupBucket (bucketGet bs i) := by
  rcases bucketGet_mem_or_nil bs i with h | h
  · exact hd _ h
  · rw [h]; exact List.Pairwise.nil

theorem bucketSet_dedup (bs : List (List Edge)) (i : Nat) (b' : List Edge)
    (hd : ∀ b ∈ bs, NoDupBucket b) (hb : NoDupBucket b') :
    ∀ b ∈ bucketSet bs i b', NoDupBucket b := by
  intro b hmem
  rcases List.mem_or_eq_of_mem_set hmem with h | h
  · exact hd _ h
  · rw [h]; exact hb

theorem bucketGet_bucketSet_self (bs : List (List Edge)) (i : Nat)
    (b' : List Edge) :
    bucketGet (bucketSet bs i b') i = b' ∨
      bucketGet (bucketSet bs i b') i = [] := by
  by_cases h : i < bs.length
  · left
    unfold bucketGet bucketSet
    rw [List.getD_eq_getElem _ [] (by simpa using h)]
    exact List.getElem_set_self _
  · right
    unfold bucketGet bucketSet
    rw [List.set_eq_of_length_le (by omega)]
    exact List.getD_eq_default bs [] (by omega)

theorem append_nodup (b : List Edge) (e : Edge) (hd : NoDupBucket b)
    (hm : memberChart b e = false) : NoDupBucket (b ++ [e]) := by
  unfold NoDupBucket
  rw [List.pairwise_append]
  refine ⟨hd, List.pairwise_singleton _ _, ?_⟩
  intro x hx y hy
  rw [List.mem_singleton] at hy
  subst hy
  unfold memberChart at hm
  have := List.any_eq_false.mp (by simpa using hm) x hx
  simpa using this

theorem spawn_partials (ch : Chart) (lc : Cat) (i : Nat) :
    (ch.spawn lc i).partials = ch.partials :=
  (spawn_fold lc i ch.grammar ch).2.1

theorem spawn_completes (ch : Chart) (lc : Cat) (i : Nat) :
    (ch.spawn lc i).completes = ch.completes :=
  (spawn_fold lc i ch.grammar ch).2.2.1

/-- `incorporate` preserves the bucket-dedup invariant. -/
theorem incorporate_dedup {ch ch' : Chart} {e : Edge}
    (hd : BucketsDedup ch) (hi : ch.incorporate e = some ch') :
    BucketsDedup ch' := by
  obtain ⟨hdc, hdp⟩ := hd
  unfold Chart.incorporate at hi
  by_cases hc : e.iscomplete = true
  · rw [hc, if_pos rfl] at hi
    rcases hmc : ch.membership_check e (bucketGet ch.completes e.left) with
      ⟨flag, bucket⟩
    rw [hmc] at hi
    simp only at hi
    have hband : NoDupBucket bucket := by
      have h₀ := bucketGet_dedup ch.completes e.left hdc
      have h₁ := mc_dedup ch e (bucketGet ch.completes e.left) h₀
      rw [hmc] at h₁
      exact h₁
    cases flag with
    | true =>
      simp only [if_true] at hi
      injection hi with hi
      subst hi
      exact ⟨bucketSet_dedup _ _ _ hdc hband, hdp⟩
    | false =>
      simp only [Bool.false_eq_true, if_false] at hi
      injection hi with hi
      subst hi
      have hfb : bucket = bucketGet ch.completes e.left := by
        have h₂ := mc_false_bucket ch e (bucketGet ch.completes e.left)
          (by rw [hmc])
        rw [hmc] at h₂
        exact h₂
      have hnm : memberChart (bucketGet ch.completes e.left) e = false :=
        mc_false_not_member ch e _ (by rw [hmc])
      constructor
      · intro b hb
        rw [(pairwithpartials_fields _ _ _).2.2.1, spawn_completes] at hb
        simp only at hb
        refine bucketSet_dedup _ _ _ (bucketSet_dedup _ _ _ hdc hband) ?_ b hb
        rcases bucketGet_bucketSet_self ch.completes e.left bucket with h | h
        · rw [h, hfb]
          exact append_nodup _ _ (hfb ▸ hband) hnm
        · rw [h]
          exact append_nodup [] e List.Pairwise.nil rfl
      · intro b hb
        rw [(pairwithpartials_fields _ _ _).2.1, spawn_partials] at hb
        exact hdp b hb
  · rw [if_neg hc] at hi
    by_cases hp : e.ispartialB = true
    · rw [hp, if_pos rfl] at hi
      rcases hmc : ch.membership_check e (bucketGet ch.partials e.right) with
        ⟨flag, bucket⟩
      rw [hmc] at hi
      simp only at hi
      have hband : NoDupBucket bucket := by
        have h₀ := bucketGet_dedup ch.partials e.right hdp
        have h₁ := mc_dedup ch e (bucketGet ch.partials e.right) h₀
        rw [hmc] at h₁
        exact h₁
      cases flag with
      | true =>
        simp only [if_true] at hi
        injection hi with hi
        subst hi
        exact ⟨hdc, bucketSet_dedup _ _ _ hdp hband⟩
      | false =>
        simp only [Bool.false_eq_true, if_false] at hi
        injection hi with hi
        subst hi
        have hfb : bucket = bucketGet ch.partials e.right := by
          have h₂ := mc_false_bucket ch e (bucketGet ch.partials e.right)
            (by rw [hmc])
          rw [hmc] at h₂
          exact h₂
        have hnm : memberChart (bucketGet ch.partials e.right) e = false :=
          mc_false_not_member ch e _ (by rw [hmc])
        constructor
        · intro b hb
          rw [(pairwithcompletes_fields _ _ _).2.2.1] at hb
          exact hdc b hb
        · intro b hb
          rw [(pairwithcompletes_fields _ _ _).2.1] at hb
          simp only at hb
          refine bucketSet_dedup _ _ _ (bucketSet_dedup _ _ _ hdp hband) ?_ b hb
          rcases bucketGet_bucketSet_self ch.partials e.right bucket with h | h
          · rw [h, hfb]
            exact append_nodup _ _ (hfb ▸ hband) hnm
          · rw [h]
            exact append_nodup [] e List.Pairwise.nil rfl
    · rw [if_neg hp] at hi
      cases hi

/-- The driver loop preserves the bucket-dedup invariant. -/
theorem run_dedup :
    ∀ (fuel : Nat) (ch ch' : Chart), BucketsDedup ch →
      Chart.run fuel ch = some ch' → BucketsDedup ch' := by
  intro fuel
  induction fuel with
  | zero =>
    intro ch ch' hd hr
    unfold Chart.run at hr
    by_cases h : ch.agenda.isEmpty = true
    · rw [if_pos h] at hr; injection hr with hr; subst hr; exact hd
    · rw [if_neg h] at hr; cases hr
  | succ n ih =>
    intro ch ch' hd hr
    unfold Chart.run at hr
    rcases ha : ch.agenda with _ | ⟨e, rest⟩
    · rw [ha] at hr; injection hr with hr; subst hr; exact hd
    · rw [ha] at hr
      simp only at hr
      rcases hinc : Chart.incorporate { ch with agenda := rest } e with _ | ch₁
      · rw [hinc] at hr; cases hr
      · rw [hinc] at hr
        have hd₁ : BucketsDedup { ch with agenda := rest } := hd
        exact ih ch₁ ch' (incorporate_dedup hd₁ hinc) hr

/-- A freshly seeded chart has empty (hence duplicate-free) buckets. -/
theorem seedChart_dedup (uf : Bool) (g : List Rule) (N : Nat)
    (arcs : List (Nat × String × Nat)) :
    BucketsDedup (seedChart uf g N arcs) := by
  constructor <;>
    · intro b hb
      simp only [seedChart, List.mem_replicate] at hb
      rw [hb.2]
      exact List.Pairwise.nil

/-- **C7, amended.**  In every chart state the incorporation loop reaches
from a seeded chart, no two edges of the same bucket are equivalent under
chart equality.  (The stronger half of the original claim — that no bucket
member is strictly less general than another — fails: see
`C7_counterexample`, where replacement removes only the first of two
incomparable members that the incoming edge generalises.) -/
theorem C7_amended_bucket_dedup :
    ∀ (fuel : Nat) (uf : Bool) (g : List Rule) (N : Nat)
      (arcs : List (Nat × String × Nat)) (ch' : Chart),
      Chart.run fuel (seedChart uf g N arcs) = some ch' →
      BucketsDedup ch' := by
  intro fuel uf g N arcs ch' h
  exact run_dedup fuel _ ch' (seedChart_dedup uf g N arcs) h

/-- Concrete instantiation of `C7_amended_bucket_dedup`: the chart reached
by the `c7chart` run (the very state exhibiting the subsumption violation)
still has duplicate-free buckets. -/
theorem C7_witness :
    BucketsDedup ((Chart.run 50 c7chart).getD (seedChart false [] 0 [])) := by
  rcases hr : Chart.run 50 c7chart with _ | ch'
  · simpa [hr] using C7_amended_bucket_dedup 0 false [] 0 [] _ rfl
  · have h' : Chart.run 50 (seedChart true c7grammar 1 (linearArcs ["w"])) =
        some ch' := hr
    simpa [hr] using
      C7_amended_bucket_dedup 50 true c7grammar 1 (linearArcs ["w"]) ch' h'

/-! ### Claim C8 -/

theorem flookup_mem {fs : List (String × String)} {k v : String}
    (h : flookup fs k = some v) : (k, v) ∈ fs := by
  induction fs with
  | nil => cases h
  | cons p rest ih =>
    obtain ⟨k', v'⟩ := p
    by_cases hk : k' = k
    · subst hk
      simp only [flookup, if_pos rfl] at h
      injection h with h
      subst h
      exact List.mem_cons_self _ _
    · simp only [flookup, if_neg hk] at h
      exact List.mem_cons_of_mem _ (ih h)

theorem mem_listsUpTo {α : Type} :
    ∀ (n : Nat) (xs l : List α), l.length ≤ n → (∀ x ∈ l, x ∈ xs) →
      l ∈ listsUpTo n xs := by
  intro n
  induction n with
  | zero =>
    intro xs l hl _
    rw [Nat.le_zero, List.length_eq_zero] at hl
    subst hl
    exact List.mem_singleton.mpr rfl
  | succ n ih =>
    intro xs l hl hx
    cases l with
    | nil => exact List.mem_cons_self _ _
    | cons a l₂ =>
      refine List.mem_cons_of_mem _ ?_
      rw [List.mem_flatMap]
      refine ⟨a, hx a (List.mem_cons_self _ _), ?_⟩
      rw [List.mem_map]
      exact ⟨l₂, ih xs l₂ (Nat.le_of_succ_le_succ (by simpa using hl))
        (fun x hm => hx x (List.mem_cons_of_mem _ hm)), rfl⟩

theorem mem_allPairs {K V : List String} {k v : String}
    (hk : k ∈ K) (hv : v ∈ V) : (k, v) ∈ allPairs K V := by
  unfold allPairs
  rw [List.mem_flatMap]
  exact ⟨k, hk, List.mem_map.mpr ⟨v, hv, rfl⟩⟩

theorem finsert_subset {k v : String} :
    ∀ {fs : List (String × String)}, ∀ p ∈ finsert fs k v,
      p = (k, v) ∨ p ∈ fs := by
  intro fs
  induction fs with
  | nil =>
    intro p hp
    rw [show finsert [] k v = [(k, v)] from rfl, List.mem_singleton] at hp
    exact Or.inl hp
  | cons q rest ih =>
    obtain ⟨k', v'⟩ := q
    intro p hp
    by_cases hkk : k = k'
    · rw [show finsert ((k', v') :: rest) k v = (k, v) :: rest from by
        simp [finsert, hkk]] at hp
      rcases List.mem_cons.mp hp with h | h
      · exact Or.inl h
      · exact Or.inr (List.mem_cons_of_mem _ h)
    · by_cases hlt : k < k'
      · rw [show finsert ((k', v') :: rest) k v = (k, v) :: (k', v') :: rest
          from by simp [finsert, hkk, hlt]] at hp
        rcases List.mem_cons.mp hp with h | h
        · exact Or.inl h
        · exact Or.inr h
      · rw [show finsert ((k', v') :: rest) k v = (k', v') :: finsert rest k v
          from by simp [finsert, hkk, hlt]] at hp
        rcases List.mem_cons.mp hp with h | h
        · exact Or.inr (h ▸ List.mem_cons_self _ _)
        · rcases ih p h with h' | h'
          · exact Or.inl h'
          · exact Or.inr (List.mem_cons_of_mem _ h')

theorem finsert_sorted {k v : String} :
    ∀ {fs : List (String × String)},
      (fs.map Prod.fst).Pairwise (· < ·) →
      ((finsert fs k v).map Prod.fst).Pairwise (· < ·) := by
  intro fs
  induction fs with
  | nil =>
    intro _
    exact List.pairwise_singleton _ _
  | cons q rest ih =>
    obtain ⟨k', v'⟩ := q
    intro h
    simp only [List.map_cons, List.pairwise_cons] at h
    obtain ⟨hk', hrest⟩ := h
    by_cases hkk : k = k'
    · rw [show finsert ((k', v') :: rest) k v = (k, v) :: rest from by
        simp [finsert, hkk]]
      simp only [List.map_cons, List.pairwise_cons]
      exact ⟨fun b hb => hkk ▸ hk' b hb, hrest⟩
    · by_cases hlt : k < k'
      · rw [show finsert ((k', v') :: rest) k v = (k, v) :: (k', v') :: rest
          from by simp [finsert, hkk, hlt]]
        simp only [List.map_cons, List.pairwise_cons]
        refine ⟨?_, fun b hb => hk' b hb, hrest⟩
        intro b hb
        rcases List.mem_cons.mp hb with h | h
        · exact h ▸ hlt
        · exact lt_trans hlt (hk' b h)
      · have hgt : k' < k := by
          rcases lt_trichotomy k k' with h | h | h
          · exact absurd h hlt
          · exact absurd h hkk
          · exact h
        rw [show finsert ((k', v') :: rest) k v = (k', v') :: finsert rest k v
          from by simp [finsert, hkk, hlt]]
        simp only [List.map_cons, List.pairwise_cons]
        refine ⟨?_, ih hrest⟩
        intro b hb
        rw [List.mem_map] at hb
        obtain ⟨p, hp, hb⟩ := hb
        subst hb
        rcases finsert_subset p hp with h | h
        · rw [h]
          exact hgt
        · exact hk' p.1 (List.mem_map.mpr ⟨p, h, rfl⟩)

theorem BindOK_finsert {U : EdgeUniverse} {fs : List (String × String)}
    {k v : String} (hk : k ∈ U.fkeys) (hv : v ∈ U.fvals)
    (h : BindOK U fs) : BindOK U (finsert fs k v) := by
  refine ⟨finsert_sorted h.1, ?_⟩
  intro p hp
  rcases finsert_subset p hp with h' | h'
  · rw [h']
    exact ⟨hk, hv⟩
  · exact h.2 p h'

theorem BindOK_extendFold {U : EdgeUniverse} {src : Cat} (hsrc : CatOK U src) :
    ∀ (ks : List String) (fs : List (String × String)),
      (∀ k ∈ ks, k ∈ U.fkeys) → BindOK U fs →
      BindOK U (ks.foldl (fun fs k =>
        match flookup src.features k with
        | none => fs
        | some v => finsert fs k v) fs) := by
  intro ks
  induction ks with
  | nil => intro fs _ h; exact h
  | cons k ks ih =>
    intro fs hks h
    simp only [List.foldl_cons]
    refine ih _ (fun k' hk' => hks k' (List.mem_cons_of_mem _ hk')) ?_
    cases hl : flookup src.features k with
    | none => exact h
    | some v =>
      exact BindOK_finsert (hks k (List.mem_cons_self _ _))
        (hsrc.2.2 _ (flookup_mem hl)).2 h

theorem CatOK_extendc {U : EdgeUniverse} {self src : Cat} {ks : List String}
    (hself : CatOK U self) (hks : ∀ k ∈ ks, k ∈ U.fkeys)
    (hsrc : CatOK U src) : CatOK U (self.extendc ks src) :=
  ⟨hself.1, BindOK_extendFold hsrc ks self.features hks hself.2⟩

theorem BindOK_length {U : EdgeUniverse} {fs : List (String × String)}
    (h : BindOK U fs) : fs.length ≤ U.fkeys.dedup.length := by
  have hnd : (fs.map Prod.fst).Nodup := h.1.imp ne_of_lt
  have hsub : fs.map Prod.fst ⊆ U.fkeys.dedup := by
    intro x hx
    rw [List.mem_map] at hx
    obtain ⟨p, hp, hx⟩ := hx
    rw [List.mem_dedup]
    exact hx ▸ (h.2 p hp).1
  have hle := (List.subperm_of_subset hnd hsub).length_le
  simpa using hle

theorem BindOK_mem_allBindings {U : EdgeUniverse}
    {fs : List (String × String)} (h : BindOK U fs) :
    fs ∈ allBindings U := by
  refine mem_listsUpTo _ _ _ (BindOK_length h) ?_
  intro p hp
  obtain ⟨hk, hv⟩ := h.2 p hp
  have := mem_allPairs hk hv
  simpa using this

theorem CatOK_mem_allCats {U : EdgeUniverse} {c : Cat} (h : CatOK U c) :
    c ∈ allCats U := by
  unfold allCats
  rw [List.mem_flatMap]
  exact ⟨c.cat, h.1,
    List.mem_map.mpr ⟨c.features, BindOK_mem_allBindings h.2, rfl⟩⟩

theorem NeededOK_mem_allNeededs {U : EdgeUniverse} {ns : List Cat}
    (h : NeededOK U ns) : ns ∈ allNeededs U :=
  mem_listsUpTo _ _ _ h.1 fun c hc => CatOK_mem_allCats (h.2 c hc)

theorem EdgeOK_key_mem {U : EdgeUniverse} {e : Edge} (h : EdgeOK U e) :
    e.key ∈ allEdgeKeys U := by
  obtain ⟨hl, hle, hre, hn, _⟩ := h
  unfold allEdgeKeys
  rw [List.mem_flatMap]
  refine ⟨e.label, CatOK_mem_allCats hl, ?_⟩
  rw [List.mem_flatMap]
  refine ⟨e.left, List.mem_range.mpr (Nat.lt_succ_of_le hle), ?_⟩
  rw [List.mem_flatMap]
  refine ⟨e.right, List.mem_range.mpr (Nat.lt_succ_of_le hre), ?_⟩
  exact List.mem_map.mpr ⟨e.needed, NeededOK_mem_allNeededs hn, rfl⟩

theorem chartEq_of_key_eq {x y : Edge} (h : x.key = y.key) :
    Edge.chartEq x y = true := by
  obtain ⟨h₁, h₂, h₃, h₄⟩ := Edge.key_ext h
  exact Edge.chartEq_iff.mpr ⟨h₂, h₃, h₁, h₄⟩

theorem bucket_length_le {U : EdgeUniverse} {b : List Edge}
    (hd : NoDupBucket b) (he : ∀ e ∈ b, EdgeOK U e) :
    b.length ≤ (allEdgeKeys U).length := by
  have hnd : (b.map Edge.key).Nodup := by
    refine List.Pairwise.map Edge.key ?_ hd
    intro x y hxy hk
    rw [chartEq_of_key_eq hk] at hxy
    cases hxy
  have hsub : b.map Edge.key ⊆ allEdgeKeys U := by
    intro x hx
    rw [List.mem_map] at hx
    obtain ⟨p, hp, hx⟩ := hx
    exact hx ▸ EdgeOK_key_mem (he p hp)
  have hle := (List.subperm_of_subset hnd hsub).length_le
  simpa using hle

theorem sum_length_le {M : Nat} :
    ∀ (bs : List (List Edge)), (∀ b ∈ bs, b.length ≤ M) →
      (bs.map List.length).sum ≤ bs.length * M := by
  intro bs
  induction bs with
  | nil => intro _; simp
  | cons b rest ih =>
    intro h
    simp only [List.map_cons, List.sum_cons, List.length_cons]
    calc b.length + (rest.map List.length).sum
        ≤ M + rest.length * M :=
          Nat.add_le_add (h b (List.mem_cons_self _ _))
            (ih fun x hx => h x (List.mem_cons_of_mem _ hx))
      _ = (rest.length + 1) * M := by ring

theorem chartSize_le_capacity {U : EdgeUniverse} {ch : Chart}
    (h : ChartOK U ch) : chartSize ch ≤ chartCapacity U ch := by
  obtain ⟨⟨hdc, hdp⟩, hec, hep, _, _, _, _⟩ := h
  unfold chartSize chartCapacity
  have h₁ : (ch.completes.map List.length).sum ≤
      ch.completes.length * (allEdgeKeys U).length :=
    sum_length_le _ fun b hb => bucket_length_le (hdc b hb) (hec b hb)
  have h₂ : (ch.partials.map List.length).sum ≤
      ch.partials.length * (allEdgeKeys U).length :=
    sum_length_le _ fun b hb => bucket_length_le (hdp b hb) (hep b hb)
  calc (ch.completes.map List.length).sum + (ch.partials.map List.length).sum
      ≤ ch.completes.length * (allEdgeKeys U).length +
        ch.partials.length * (allEdgeKeys U).length := Nat.add_le_add h₁ h₂
    _ = (ch.completes.length + ch.partials.length) * (allEdgeKeys U).length :=
      by ring

theorem sum_length_set :
    ∀ (bs : List (List Edge)) (i : Nat) (b : List Edge), i < bs.length →
      ((bs.set i b).map List.length).sum + (bs.getD i []).length =
        (bs.map List.length).sum + b.length := by
  intro bs
  induction bs with
  | nil =>
    intro i b h
    simp at h
  | cons x rest ih =>
    intro i b h
    cases i with
    | zero =>
      simp only [List.set, List.map_cons, List.sum_cons, List.getD_cons_zero]
      omega
    | succ n =>
      have hn : n < rest.length := by simpa using h
      simp only [List.set, List.map_cons, List.sum_cons, List.getD_cons_succ]
      have := ih n b hn
      omega

theorem bucketGet_bucketSet_self_lt {bs : List (List Edge)} {i : Nat}
    (b' : List Edge) (h : i < bs.length) :
    bucketGet (bucketSet bs i b') i = b' := by
  unfold bucketGet bucketSet
  rw [List.getD_eq_getElem _ [] (by simpa using h)]
  exact List.getElem_set_self _

theorem bucketGet_ok {U : EdgeUniverse} {bs : List (List Edge)} {i : Nat}
    (h : ∀ b ∈ bs, ∀ e ∈ b, EdgeOK U e) :
    ∀ e ∈ bucketGet bs i, EdgeOK U e := by
  rcases bucketGet_mem_or_nil bs i with hm | hm
  · exact h _ hm
  · rw [hm]
    intro e he
    exact absurd he (List.not_mem_nil e)

theorem mcScan_cases (e : Edge) (prev : List Edge) :
    ∀ scan : List Edge, (∀ p ∈ scan, p ∈ prev) →
      mcScan e prev scan = (false, prev) ∨
      mcScan e prev scan = (true, prev) ∨
      ∃ p ∈ prev, mcScan e prev scan = (true, removeChart prev p ++ [e]) := by
  intro scan
  induction scan with
  | nil => intro _; exact Or.inl rfl
  | cons p rest ih =>
    intro hsub
    by_cases h₁ : e.less_general p = true
    · exact Or.inr (Or.inl (by simp [mcScan, h₁]))
    · by_cases h₂ : p.less_general e = true
      · exact Or.inr (Or.inr ⟨p, hsub p (List.mem_cons_self _ _), by
          simp [mcScan, h₁, h₂]⟩)
      · have hstep : mcScan e prev (p :: rest) = mcScan e prev rest := by
          simp [mcScan, h₁, h₂]
        rw [hstep]
        exact ih fun q hq => hsub q (List.mem_cons_of_mem _ hq)

theorem mc_cases_mem (ch : Chart) (e : Edge) (b : List Edge) :
    (ch.membership_check e b).2 = b ∨
      ∃ p ∈ b, (ch.membership_check e b).2 = removeChart b p ++ [e] := by
  unfold Chart.membership_check
  by_cases hm : memberChart b e = true
  · rw [if_pos hm]
    exact Or.inl rfl
  · rw [if_neg hm]
    cases huf : ch.usingFeatures with
    | false => simp
    | true =>
      simp only [Bool.not_true, Bool.false_eq_true, if_false]
      rcases mcScan_cases e b b (fun p hp => hp) with h | h | ⟨p, hp, h⟩
      · rw [h]
        exact Or.inl rfl
      · rw [h]
        exact Or.inl rfl
      · rw [h]
        exact Or.inr ⟨p, hp, rfl⟩

theorem mc_bucket_sub (ch : Chart) (e : Edge) (b : List Edge) :
    ∀ x ∈ (ch.membership_check e b).2, x ∈ b ∨ x = e := by
  rcases mc_cases_mem ch e b with h | ⟨p, _, h⟩
  · rw [h]
    exact fun x hx => Or.inl hx
  · rw [h]
    intro x hx
    rcases List.mem_append.mp hx with h' | h'
    · exact Or.inl (List.mem_of_mem_filter h')
    · rw [List.mem_singleton] at h'
      exact Or.inr h'

theorem removeChart_length {p : Edge} :
    ∀ {b : List Edge}, NoDupBucket b → p ∈ b →
      (removeChart b p).length + 1 = b.length := by
  intro b
  induction b with
  | nil =>
    intro _ hp
    cases hp
  | cons x rest ih =>
    intro hd hp
    rw [NoDupBucket, List.pairwise_cons] at hd
    obtain ⟨hx, hrest⟩ := hd
    rcases List.mem_cons.mp hp with h | h
    · subst h
      have hrm : removeChart (p :: rest) p = rest := by
        unfold removeChart
        rw [List.filter_cons]
        rw [show (!Edge.chartEq p p) = false from by
          rw [Edge.chartEq_refl]; rfl]
        simp only [Bool.false_eq_true, if_false]
        refine List.filter_eq_self.mpr ?_
        intro x hx'
        cases h₂ : Edge.chartEq x p with
        | false => rfl
        | true =>
          have h₁ : Edge.chartEq p x = false := hx x hx'
          rw [Edge.chartEq_symm h₂] at h₁
          cases h₁
      rw [hrm]
      simp
    · have hxp : Edge.chartEq x p = false := hx p h
      have hrm : removeChart (x :: rest) p = x :: removeChart rest p := by
        unfold removeChart
        rw [List.filter_cons]
        rw [show (!Edge.chartEq x p) = true from by rw [hxp]; rfl]
        simp
      rw [hrm]
      have := ih hrest h
      simp only [List.length_cons]
      omega

theorem incorporate_isSome (ch : Chart) (e : Edge) :
    ∃ ch', ch.incorporate e = some ch' := by
  unfold Chart.incorporate
  by_cases hc : e.iscomplete = true
  · rw [hc, if_pos rfl]
    rcases hmc : ch.membership_check e (bucketGet ch.completes e.left) with
      ⟨flag, bucket⟩
    simp only
    cases flag with
    | true => exact ⟨_, rfl⟩
    | false => exact ⟨_, rfl⟩
  · have hp : e.ispartialB = true := by
      simp only [Edge.iscomplete] at hc
      simp only [Edge.ispartialB]
      cases h : e.needed.isEmpty with
      | true => exact absurd h hc
      | false => rfl
    rw [if_neg hc, hp, if_pos rfl]
    rcases hmc : ch.membership_check e (bucketGet ch.partials e.right) with
      ⟨flag, bucket⟩
    simp only
    cases flag with
    | true => exact ⟨_, rfl⟩
    | false => exact ⟨_, rfl⟩

theorem EdgeOK_percolate {U : EdgeUniverse} {x : Edge} {src : Cat}
    (hx : EdgeOK U x) (hsrc : CatOK U src) : EdgeOK U (x.percolate src) := by
  obtain ⟨hl, hle, hre, hn, hcs⟩ := hx
  obtain ⟨hc1, hc2⟩ := hcs
  have hlabel : CatOK U (x.percolate src).label := CatOK_extendc hl hc1 hsrc
  have hneeded : NeededOK U (x.percolate src).needed := by
    constructor
    · calc ((x.constraints.2.tail.zip x.needed).map fun cr =>
            cr.2.extendc cr.1 src).length
          = (x.constraints.2.tail.zip x.needed).length := List.length_map _ _
        _ ≤ x.needed.length := by
            rw [List.length_zip]
            exact Nat.min_le_right _ _
        _ ≤ U.maxLen := hn.1
    · intro c hc
      rw [show (x.percolate src).needed =
        (x.constraints.2.tail.zip x.needed).map fun cr =>
          cr.2.extendc cr.1 src from rfl] at hc
      rw [List.mem_map] at hc
      obtain ⟨⟨cκ, r⟩, hmem, hc⟩ := hc
      subst hc
      obtain ⟨hcκ, hr⟩ := List.of_mem_zip hmem
      exact CatOK_extendc (hn.2 r hr)
        (fun k hk => hc2 cκ (List.mem_of_mem_tail hcκ) k hk) hsrc
  refine ⟨hlabel, hle, hre, hneeded, ?_, ?_⟩
  · exact hc1
  · intro l hl' k hk
    exact hc2 l (List.mem_of_mem_tail hl') k hk

theorem pairPartialStep_ok {U : EdgeUniverse} {c : Chart} {e p : Edge}
    (hag : ∀ a ∈ c.agenda, EdgeOK U a) (he : EdgeOK U e) (hp : EdgeOK U p) :
    ∀ a ∈ (pairPartialStep e c p).agenda, EdgeOK U a := by
  rcases hn : p.needed with _ | ⟨n₀, rest⟩
  · simp only [pairPartialStep, hn]
    exact hag
  · simp only [pairPartialStep, hn]
    by_cases hcc : c.compat e.label n₀ = true
    · rw [if_pos hcc]
      have hbase : EdgeOK U ⟨p.label, p.left, e.right, rest, p.constraints⟩ := by
        obtain ⟨hpl, hple, hpre, hpn, hpc⟩ := hp
        refine ⟨hpl, hple, he.2.2.1, ⟨?_, ?_⟩, hpc⟩
        · have := hpn.1
          rw [hn] at this
          simp only [List.length_cons] at this
          show rest.length ≤ U.maxLen
          omega
        · intro x hx
          exact hpn.2 x (by rw [hn]; exact List.mem_cons_of_mem _ hx)
      intro a ha
      simp only [Chart.push, Chart.add_prev] at ha
      rcases List.mem_cons.mp ha with h | h
      · subst h
        cases huf : c.usingFeatures with
        | false => simpa [huf] using hbase
        | true =>
          simp only [huf, if_pos rfl]
          exact EdgeOK_percolate hbase he.1
      · exact hag a h
    · rw [if_neg hcc]
      exact hag

theorem pairwithpartials_ok {U : EdgeUniverse} {e : Edge} :
    ∀ (ps : List Edge) (c : Chart), (∀ a ∈ c.agenda, EdgeOK U a) →
      EdgeOK U e → (∀ p ∈ ps, EdgeOK U p) →
      ∀ a ∈ (c.pairwithpartials ps e).agenda, EdgeOK U a := by
  intro ps
  induction ps with
  | nil =>
    intro c hag _ _
    exact hag
  | cons p rest ih =>
    intro c hag he hps
    simp only [Chart.pairwithpartials, List.foldl_cons]
    exact ih (pairPartialStep e c p)
      (pairPartialStep_ok hag he (hps p (List.mem_cons_self _ _))) he
      (fun q hq => hps q (List.mem_cons_of_mem _ hq))

theorem pairCompleteStep_ok {U : EdgeUniverse} {c : Chart} {e x : Edge}
    (hag : ∀ a ∈ c.agenda, EdgeOK U a) (he : EdgeOK U e) (hx : EdgeOK U x) :
    ∀ a ∈ (pairCompleteStep e c x).agenda, EdgeOK U a := by
  rcases hn : e.needed with _ | ⟨n₀, rest⟩
  · simp only [pairCompleteStep, hn]
    exact hag
  · simp only [pairCompleteStep, hn]
    by_cases hcc : c.compat n₀ x.label = true
    · rw [if_pos hcc]
      have hbase : EdgeOK U ⟨e.label, e.left, x.right, rest, e.constraints⟩ := by
        obtain ⟨hel, hele, here, hen, hec⟩ := he
        refine ⟨hel, hele, hx.2.2.1, ⟨?_, ?_⟩, hec⟩
        · have := hen.1
          rw [hn] at this
          simp only [List.length_cons] at this
          show rest.length ≤ U.maxLen
          omega
        · intro y hy
          exact hen.2 y (by rw [hn]; exact List.mem_cons_of_mem _ hy)
      intro a ha
      simp only [Chart.push, Chart.add_prev] at ha
      rcases List.mem_cons.mp ha with h | h
      · subst h
        cases huf : c.usingFeatures with
        | false => simpa [huf] using hbase
        | true =>
          simp only [huf, if_pos rfl]
          exact EdgeOK_percolate hbase hx.1
      · exact hag a h
    · rw [if_neg hcc]
      exact hag

theorem pairwithcompletes_ok {U : EdgeUniverse} {e : Edge} :
    ∀ (cs : List Edge) (c : Chart), (∀ a ∈ c.agenda, EdgeOK U a) →
      EdgeOK U e → (∀ x ∈ cs, EdgeOK U x) →
      ∀ a ∈ (c.pairwithcompletes e cs).agenda, EdgeOK U a := by
  intro cs
  induction cs with
  | nil =>
    intro c hag _ _
    exact hag
  | cons x rest ih =>
    intro c hag he hcs
    simp only [Chart.pairwithcompletes, List.foldl_cons]
    exact ih (pairCompleteStep e c x)
      (pairCompleteStep_ok hag he (hcs x (List.mem_cons_self _ _))) he
      (fun q hq => hcs q (List.mem_cons_of_mem _ hq))

theorem EdgeOK_spawnEdge {U : EdgeUniverse} {r : Rule} {i : Nat}
    (hr : CatOK U r.lhs ∧ (∀ c ∈ r.rhs, CatOK U c) ∧
      r.rhs.length ≤ U.maxLen ∧ ConstrOK U r.constraints)
    (hi : i ≤ U.lastState) : EdgeOK U (spawnEdge r i) :=
  ⟨hr.1, hi, hi, ⟨hr.2.2.1, hr.2.1⟩, hr.2.2.2⟩

theorem spawn_agenda_ok {U : EdgeUniverse} {ch : Chart} {lc : Cat} {i : Nat}
    (hag : ∀ a ∈ ch.agenda, EdgeOK U a) (hg : GrammarOK U ch.grammar)
    (hi : i ≤ U.lastState) :
    ∀ a ∈ (ch.spawn lc i).agenda, EdgeOK U a := by
  intro a ha
  rw [show ch.spawn lc i = ch.grammar.foldl (spawnStep lc i) ch from rfl,
    (spawn_fold lc i ch.grammar ch).2.2.2.2] at ha
  rcases List.mem_append.mp ha with h | h
  · rw [List.mem_reverse] at h
    unfold spawnListOn at h
    rw [List.mem_map] at h
    obtain ⟨r, hr, h⟩ := h
    subst h
    exact EdgeOK_spawnEdge (hg r (List.mem_of_mem_filter hr)) hi
  · exact hag a h

theorem EdgeOK_lexicalEdge {U : EdgeUniverse} {w : String} {i j : Nat}
    (hw : w ∈ U.names) (hi : i ≤ U.lastState) (hj : j ≤ U.lastState) :
    EdgeOK U (lexicalEdge w i j) :=
  ⟨⟨hw, List.Pairwise.nil, fun p hp => absurd hp (List.not_mem_nil p)⟩, hi, hj,
   ⟨Nat.zero_le _, fun c hc => absurd hc (List.not_mem_nil c)⟩,
   fun k hk => absurd hk (List.not_mem_nil k),
   fun l hl => absurd hl (List.not_mem_nil l)⟩

theorem foldl_cons_mem {α : Type} (f : α → Edge) :
    ∀ (xs : List α) (acc : List Edge) (a : Edge),
      a ∈ xs.foldl (fun ag x => f x :: ag) acc →
      a ∈ acc ∨ ∃ x ∈ xs, a = f x := by
  intro xs
  induction xs with
  | nil =>
    intro acc a ha
    exact Or.inl ha
  | cons x rest ih =>
    intro acc a ha
    simp only [List.foldl_cons] at ha
    rcases ih (f x :: acc) a ha with h | ⟨y, hy, h⟩
    · rcases List.mem_cons.mp h with h' | h'
      · exact Or.inr ⟨x, List.mem_cons_self _ _, h'⟩
      · exact Or.inl h'
    · exact Or.inr ⟨y, List.mem_cons_of_mem _ hy, h⟩

theorem spawn_grammar (ch : Chart) (lc : Cat) (i : Nat) :
    (ch.spawn lc i).grammar = ch.grammar :=
  (spawn_fold lc i ch.grammar ch).2.2.2.1

/-- `sum_length_set` restated through the bucket interface. -/
theorem sum_length_bucketSet (bs : List (List Edge)) (i : Nat)
    (b : List Edge) (h : i < bs.length) :
    ((bucketSet bs i b).map List.length).sum + (bucketGet bs i).length =
      (bs.map List.length).sum + b.length :=
  sum_length_set bs i b h

/-- One incorporation step preserves the loop invariant and the bucket
counts, and either stores the popped edge (the chart grows by one) or
discards it without touching the agenda. -/
theorem incorporate_invariant {U : EdgeUniverse} {ch ch' : Chart} {e : Edge}
    (hok : ChartOK U ch) (he : EdgeOK U e)
    (hi : ch.incorporate e = some ch') :
    ChartOK U ch' ∧
      ch'.completes.length = ch.completes.length ∧
      ch'.partials.length = ch.partials.length ∧
      (chartSize ch' = chartSize ch + 1 ∨
        (chartSize ch' = chartSize ch ∧ ch'.agenda = ch.agenda)) := by
  obtain ⟨hdd, hec, hep, hag, hg, hrc, hrp⟩ := hok
  have hded' : BucketsDedup ch' := incorporate_dedup hdd hi
  obtain ⟨hdc, hdp⟩ := hdd
  unfold Chart.incorporate at hi
  by_cases hc : e.iscomplete = true
  · rw [hc, if_pos rfl] at hi
    have hrange : e.left < ch.completes.length := lt_of_le_of_lt he.2.1 hrc
    rcases hmc : ch.membership_check e (bucketGet ch.completes e.left) with
      ⟨flag, bucket⟩
    rw [hmc] at hi
    simp only at hi
    have hsub : ∀ x ∈ bucket, x ∈ bucketGet ch.completes e.left ∨ x = e := by
      have h := mc_bucket_sub ch e (bucketGet ch.completes e.left)
      rw [hmc] at h
      exact h
    have hprevOK : ∀ x ∈ bucketGet ch.completes e.left, EdgeOK U x :=
      bucketGet_ok hec
    have hbOK : ∀ x ∈ bucket, EdgeOK U x := by
      intro x hx
      rcases hsub x hx with h | h
      · exact hprevOK x h
      · exact h ▸ he
    cases flag with
    | true =>
      simp only [if_true] at hi
      injection hi with hi
      subst hi
      have hlen : bucket.length = (bucketGet ch.completes e.left).length := by
        rcases mc_cases_mem ch e (bucketGet ch.completes e.left) with
          h | ⟨p, hp', h⟩
        · rw [hmc] at h
          simp only at h
          rw [h]
        · rw [hmc] at h
          simp only at h
          have hrem := removeChart_length
            (bucketGet_dedup ch.completes e.left hdc) hp'
          rw [h]
          simp only [List.length_append, List.length_cons, List.length_nil]
          omega
      have hsum := sum_length_bucketSet ch.completes e.left bucket hrange
      refine ⟨⟨hded', ?_, hep, hag, hg, ?_, hrp⟩, ?_, rfl, Or.inr ⟨?_, rfl⟩⟩
      · intro b hb
        rcases List.mem_or_eq_of_mem_set hb with h | h
        · exact hec b h
        · exact h ▸ hbOK
      · simpa [bucketSet] using hrc
      · simp [bucketSet]
      · unfold chartSize
        simp only
        omega
    | false =>
      simp only [Bool.false_eq_true, if_false] at hi
      have hfb : bucket = bucketGet ch.completes e.left := by
        have h₂ := mc_false_bucket ch e (bucketGet ch.completes e.left)
          (by rw [hmc])
        rw [hmc] at h₂
        exact h₂
      subst hfb
      rw [bucketSet_bucketGet ch.completes e.left hrange] at hi
      injection hi with hi
      subst hi
      refine ⟨⟨hded', ?_, ?_, ?_, ?_, ?_, ?_⟩, ?_, ?_, Or.inl ?_⟩
      · rw [(pairwithpartials_fields _ _ _).2.2.1, spawn_completes]
        intro b hb
        rcases List.mem_or_eq_of_mem_set hb with h | h
        · exact hec b h
        · subst h
          intro x hx
          rcases List.mem_append.mp hx with h | h
          · exact hprevOK x h
          · rw [List.mem_singleton] at h
            exact h ▸ he
      · rw [(pairwithpartials_fields _ _ _).2.1, spawn_partials]
        exact hep
      · refine pairwithpartials_ok _ _ ?_ he ?_
        · exact spawn_agenda_ok hag hg he.2.1
        · intro p hp
          unfold Chart.somepartialsRight at hp
          rw [spawn_partials] at hp
          exact bucketGet_ok hep p hp
      · rw [(pairwithpartials_fields _ _ _).2.2.2, spawn_grammar]
        exact hg
      · rw [(pairwithpartials_fields _ _ _).2.2.1, spawn_completes]
        simpa [bucketSet] using hrc
      · rw [(pairwithpartials_fields _ _ _).2.1, spawn_partials]
        exact hrp
      · rw [(pairwithpartials_fields _ _ _).2.2.1, spawn_completes]
        simp [bucketSet]
      · rw [(pairwithpartials_fields _ _ _).2.1, spawn_partials]
      · unfold chartSize
        rw [(pairwithpartials_fields _ _ _).2.2.1, spawn_completes,
          (pairwithpartials_fields _ _ _).2.1, spawn_partials]
        have hsum := sum_length_bucketSet ch.completes e.left
          (bucketGet ch.completes e.left ++ [e]) hrange
        simp only [List.length_append, List.length_cons, List.length_nil]
          at hsum
        show ((bucketSet ch.completes e.left
            (bucketGet ch.completes e.left ++ [e])).map List.length).sum +
          (ch.partials.map List.length).sum =
          (ch.completes.map List.length).sum +
            (ch.partials.map List.length).sum + 1
        omega
  · have hp : e.ispartialB = true := by
      simp only [Edge.iscomplete] at hc
      simp only [Edge.ispartialB]
      cases h : e.needed.isEmpty with
      | true => exact absurd h hc
      | false => rfl
    rw [if_neg hc, hp, if_pos rfl] at hi
    have hrange : e.right < ch.partials.length := lt_of_le_of_lt he.2.2.1 hrp
    rcases hmc : ch.membership_check e (bucketGet ch.partials e.right) with
      ⟨flag, bucket⟩
    rw [hmc] at hi
    simp only at hi
    have hsub : ∀ x ∈ bucket, x ∈ bucketGet ch.partials e.right ∨ x = e := by
      have h := mc_bucket_sub ch e (bucketGet ch.partials e.right)
      rw [hmc] at h
      exact h
    have hprevOK : ∀ x ∈ bucketGet ch.partials e.right, EdgeOK U x :=
      bucketGet_ok hep
    have hbOK : ∀ x ∈ bucket, EdgeOK U x := by
      intro x hx
      rcases hsub x hx with h | h
      · exact hprevOK x h
      · exact h ▸ he
    cases flag with
    | true =>
      simp only [if_true] at hi
      injection hi with hi
      subst hi
      have hlen : bucket.length = (bucketGet ch.partials e.right).length := by
        rcases mc_cases_mem ch e (bucketGet ch.partials e.right) with
          h | ⟨p, hp', h⟩
        · rw [hmc] at h
          simp only at h
          rw [h]
        · rw [hmc] at h
          simp only at h
          have hrem := removeChart_length
            (bucketGet_dedup ch.partials e.right hdp) hp'
          rw [h]
          simp only [List.length_append, List.length_cons, List.length_nil]
          omega
      have hsum := sum_length_bucketSet ch.partials e.right bucket hrange
      refine ⟨⟨hded', hec, ?_, hag, hg, hrc, ?_⟩, rfl, ?_, Or.inr ⟨?_, rfl⟩⟩
      · intro b hb
        rcases List.mem_or_eq_of_mem_set hb with h | h
        · exact hep b h
        · exact h ▸ hbOK
      · simpa [bucketSet] using hrp
      · simp [bucketSet]
      · unfold chartSize
        simp only
        omega
    | false =>
      simp only [Bool.false_eq_true, if_false] at hi
      have hfb : bucket = bucketGet ch.partials e.right := by
        have h₂ := mc_false_bucket ch e (bucketGet ch.partials e.right)
          (by rw [hmc])
        rw [hmc] at h₂
        exact h₂
      subst hfb
      rw [bucketSet_bucketGet ch.partials e.right hrange] at hi
      injection hi with hi
      subst hi
      refine ⟨⟨hded', ?_, ?_, ?_, ?_, ?_, ?_⟩, ?_, ?_, Or.inl ?_⟩
      · rw [(pairwithcompletes_fields _ _ _).2.2.1]
        exact hec
      · rw [(pairwithcompletes_fields _ _ _).2.1]
        intro b hb
        rcases List.mem_or_eq_of_mem_set hb with h | h
        · exact hep b h
        · subst h
          intro x hx
          rcases List.mem_append.mp hx with h | h
          · exact hprevOK x h
          · rw [List.mem_singleton] at h
            exact h ▸ he
      · refine pairwithcompletes_ok _ _ hag he ?_
        intro x hx
        exact bucketGet_ok hec x hx
      · rw [(pairwithcompletes_fields _ _ _).2.2.2]
        exact hg
      · rw [(pairwithcompletes_fields _ _ _).2.2.1]
        exact hrc
      · rw [(pairwithcompletes_fields _ _ _).2.1]
        simpa [bucketSet] using hrp
      · rw [(pairwithcompletes_fields _ _ _).2.2.1]
      · rw [(pairwithcompletes_fields _ _ _).2.1]
        simp [bucketSet]
      · unfold chartSize
        rw [(pairwithcompletes_fields _ _ _).2.2.1,
          (pairwithcompletes_fields _ _ _).2.1]
        have hsum := sum_length_bucketSet ch.partials e.right
          (bucketGet ch.partials e.right ++ [e]) hrange
        simp only [List.length_append, List.length_cons, List.length_nil]
          at hsum
        show (ch.completes.map List.length).sum +
          ((bucketSet ch.partials e.right
            (bucketGet ch.partials e.right ++ [e])).map List.length).sum =
          (ch.completes.map List.length).sum +
            (ch.partials.map List.length).sum + 1
        omega

theorem run_agenda_nil {ch : Chart} (h : ch.agenda = []) :
    Chart.run 0 ch = some ch := by
  unfold Chart.run
  rw [h]
  rfl

theorem run_some_agenda :
    ∀ (fuel : Nat) {ch ch' : Chart}, Chart.run fuel ch = some ch' →
      ch'.agenda = [] := by
  intro fuel
  induction fuel with
  | zero =>
    intro ch ch' h
    unfold Chart.run at h
    by_cases ha : ch.agenda.isEmpty = true
    · rw [if_pos ha] at h
      injection h with h
      subst h
      exact List.isEmpty_iff.mp ha
    · rw [if_neg ha] at h
      cases h
  | succ n ih =>
    intro ch ch' h
    unfold Chart.run at h
    rcases ha : ch.agenda with _ | ⟨e, rest⟩
    · rw [ha] at h
      injection h with h
      subst h
      exact ha
    · rw [ha] at h
      simp only at h
      rcases hinc : Chart.incorporate { ch with agenda := rest } e with _ | ch₁
      · rw [hinc] at h
        cases h
      · rw [hinc] at h
        exact ih h

theorem run_succ_cons {ch : Chart} {e : Edge} {rest : List Edge} (n : Nat)
    (ha : ch.agenda = e :: rest) {ch₁ : Chart}
    (hi : Chart.incorporate { ch with agenda := rest } e = some ch₁) :
    Chart.run (n + 1) ch = Chart.run n ch₁ := by
  conv_lhs => rw [Chart.run]
  rw [ha]
  simp only
  rw [hi]

/-- The driver loop terminates: from any state satisfying the loop
invariant, some fuel suffices.  Outer induction on the free storage
capacity, inner induction on the agenda length. -/
theorem run_total {U : EdgeUniverse} :
    ∀ (c a : Nat) (ch : Chart), ChartOK U ch →
      chartCapacity U ch ≤ chartSize ch + c →
      ch.agenda.length ≤ a →
      ∃ n ch', Chart.run n ch = some ch' := by
  intro c
  induction c with
  | zero =>
    intro a
    induction a with
    | zero =>
      intro ch hok hcap hag
      rw [Nat.le_zero, List.length_eq_zero] at hag
      exact ⟨0, ch, run_agenda_nil hag⟩
    | succ a iha =>
      intro ch hok hcap hag
      rcases hagenda : ch.agenda with _ | ⟨e, rest⟩
      · exact ⟨0, ch, run_agenda_nil hagenda⟩
      · obtain ⟨ch₁, hi⟩ := incorporate_isSome { ch with agenda := rest } e
        have hok' : ChartOK U { ch with agenda := rest } :=
          ⟨hok.1, hok.2.1, hok.2.2.1,
            fun x hx => hok.2.2.2.1 x
              (by rw [hagenda]; exact List.mem_cons_of_mem _ hx),
            hok.2.2.2.2.1, hok.2.2.2.2.2.1, hok.2.2.2.2.2.2⟩
        have he : EdgeOK U e := hok.2.2.2.1 e
          (by rw [hagenda]; exact List.mem_cons_self _ _)
        obtain ⟨hok₁, hlc, hlp, hsz⟩ := incorporate_invariant hok' he hi
        have hcapeq : chartCapacity U ch₁ = chartCapacity U ch := by
          unfold chartCapacity
          rw [hlc, hlp]
        rcases hsz with h1 | ⟨h1, h2⟩
        · exfalso
          have hle := chartSize_le_capacity hok₁
          have hsz' : chartSize ch₁ = chartSize ch + 1 := h1
          omega
        · have h2' : ch₁.agenda = rest := h2
          have hs' : chartSize ch₁ = chartSize ch := h1
          obtain ⟨n, ch'', hrun⟩ := iha ch₁ hok₁ (by omega) (by
            rw [h2']
            have := hag
            rw [hagenda] at this
            simpa using this)
          exact ⟨n + 1, ch'', by rw [run_succ_cons n hagenda hi]; exact hrun⟩
  | succ c ihc =>
    intro a
    induction a with
    | zero =>
      intro ch hok hcap hag
      rw [Nat.le_zero, List.length_eq_zero] at hag
      exact ⟨0, ch, run_agenda_nil hag⟩
    | succ a iha =>
      intro ch hok hcap hag
      rcases hagenda : ch.agenda with _ | ⟨e, rest⟩
      · exact ⟨0, ch, run_agenda_nil hagenda⟩
      · obtain ⟨ch₁, hi⟩ := incorporate_isSome { ch with agenda := rest } e
        have hok' : ChartOK U { ch with agenda := rest } :=
          ⟨hok.1, hok.2.1, hok.2.2.1,
            fun x hx => hok.2.2.2.1 x
              (by rw [hagenda]; exact List.mem_cons_of_mem _ hx),
            hok.2.2.2.2.1, hok.2.2.2.2.2.1, hok.2.2.2.2.2.2⟩
        have he : EdgeOK U e := hok.2.2.2.1 e
          (by rw [hagenda]; exact List.mem_cons_self _ _)
        obtain ⟨hok₁, hlc, hlp, hsz⟩ := incorporate_invariant hok' he hi
        have hcapeq : chartCapacity U ch₁ = chartCapacity U ch := by
          unfold chartCapacity
          rw [hlc, hlp]
        rcases hsz with h1 | ⟨h1, h2⟩
        · have hsz' : chartSize ch₁ = chartSize ch + 1 := h1
          obtain ⟨n, ch'', hrun⟩ := ihc ch₁.agenda.length ch₁ hok₁ (by omega)
            (le_refl _)
          exact ⟨n + 1, ch'', by rw [run_succ_cons n hagenda hi]; exact hrun⟩
        · have h2' : ch₁.agenda = rest := h2
          have hs' : chartSize ch₁ = chartSize ch := h1
          obtain ⟨n, ch'', hrun⟩ := iha ch₁ hok₁ (by omega) (by
            rw [h2']
            have := hag
            rw [hagenda] at this
            simpa using this)
          exact ⟨n + 1, ch'', by rw [run_succ_cons n hagenda hi]; exact hrun⟩

theorem foldr_max_le (g : List Rule) :
    ∀ r ∈ g, r.rhs.length ≤ g.foldr (fun r m => max r.rhs.length m) 0 := by
  induction g with
  | nil =>
    intro r hr
    cases hr
  | cons x rest ih =>
    intro r hr
    rcases List.mem_cons.mp hr with h | h
    · subst h
      exact Nat.le_max_left _ _
    · exact le_trans (ih r h) (Nat.le_max_right _ _)

theorem mkUniverse_grammar_ok (g : List Rule)
    (arcs : List (Nat × String × Nat)) (N : Nat)
    (hsorted : ∀ r ∈ g, ∀ c ∈ r.lhs :: r.rhs,
      (c.features.map Prod.fst).Pairwise (· < ·)) :
    GrammarOK (mkUniverse g arcs N) g := by
  intro r hr
  have hcat : ∀ c ∈ r.lhs :: r.rhs, CatOK (mkUniverse g arcs N) c := by
    intro c hcmem
    refine ⟨?_, hsorted r hr c hcmem, ?_⟩
    · show c.cat ∈ (g.flatMap fun r => (r.lhs :: r.rhs).map Cat.cat) ++
        arcs.map fun a => a.2.1
      refine List.mem_append.mpr (Or.inl ?_)
      rw [List.mem_flatMap]
      exact ⟨r, hr, List.mem_map.mpr ⟨c, hcmem, rfl⟩⟩
    · intro p hp
      constructor
      · show p.1 ∈ g.flatMap fun r =>
          ((r.lhs :: r.rhs).flatMap fun c => c.features.map Prod.fst) ++
            (r.constraints.1 ++ r.constraints.2.flatten)
        rw [List.mem_flatMap]
        refine ⟨r, hr, List.mem_append.mpr (Or.inl ?_)⟩
        rw [List.mem_flatMap]
        exact ⟨c, hcmem, List.mem_map.mpr ⟨p, hp, rfl⟩⟩
      · show p.2 ∈ g.flatMap fun r =>
          (r.lhs :: r.rhs).flatMap fun c => c.features.map Prod.snd
        rw [List.mem_flatMap]
        refine ⟨r, hr, ?_⟩
        rw [List.mem_flatMap]
        exact ⟨c, hcmem, List.mem_map.mpr ⟨p, hp, rfl⟩⟩
  refine ⟨hcat r.lhs (List.mem_cons_self _ _),
    fun c hc => hcat c (List.mem_cons_of_mem _ hc),
    foldr_max_le g r hr, ?_, ?_⟩
  · intro k hk
    show k ∈ g.flatMap fun r =>
      ((r.lhs :: r.rhs).flatMap fun c => c.features.map Prod.fst) ++
        (r.constraints.1 ++ r.constraints.2.flatten)
    rw [List.mem_flatMap]
    exact ⟨r, hr, List.mem_append.mpr
      (Or.inr (List.mem_append.mpr (Or.inl hk)))⟩
  · intro l hlmem k hk
    show k ∈ g.flatMap fun r =>
      ((r.lhs :: r.rhs).flatMap fun c => c.features.map Prod.fst) ++
        (r.constraints.1 ++ r.constraints.2.flatten)
    rw [List.mem_flatMap]
    exact ⟨r, hr, List.mem_append.mpr (Or.inr (List.mem_append.mpr
      (Or.inr (List.mem_flatten.mpr ⟨l, hlmem, hk⟩))))⟩

theorem seedChart_ok (uf : Bool) (g : List Rule) (N : Nat)
    (arcs : List (Nat × String × Nat))
    (harcs : ∀ a ∈ arcs, a.1 ≤ N ∧ a.2.2 ≤ N)
    (hsorted : ∀ r ∈ g, ∀ c ∈ r.lhs :: r.rhs,
      (c.features.map Prod.fst).Pairwise (· < ·)) :
    ChartOK (mkUniverse g arcs N) (seedChart uf g N arcs) := by
  refine ⟨seedChart_dedup uf g N arcs, ?_, ?_, ?_,
    mkUniverse_grammar_ok g arcs N hsorted, ?_, ?_⟩
  · intro b hb
    rw [show (seedChart uf g N arcs).completes =
      List.replicate (N + 1) [] from rfl] at hb
    rw [List.eq_of_mem_replicate hb]
    intro x hx
    exact absurd hx (List.not_mem_nil x)
  · intro b hb
    rw [show (seedChart uf g N arcs).partials =
      List.replicate (N + 1) [] from rfl] at hb
    rw [List.eq_of_mem_replicate hb]
    intro x hx
    exact absurd hx (List.not_mem_nil x)
  · intro x hx
    rw [show (seedChart uf g N arcs).agenda =
      arcs.foldl (fun ag a => lexicalEdge a.2.1 a.1 a.2.2 :: ag) []
      from rfl] at hx
    rcases foldl_cons_mem (fun a => lexicalEdge a.2.1 a.1 a.2.2) arcs [] x hx
      with h | ⟨a, ha, h⟩
    · cases h
    · subst h
      refine EdgeOK_lexicalEdge ?_ (harcs a ha).1 (harcs a ha).2
      show a.2.1 ∈ (g.flatMap fun r => (r.lhs :: r.rhs).map Cat.cat) ++
        arcs.map fun a => a.2.1
      refine List.mem_append.mpr (Or.inr ?_)
      exact List.mem_map.mpr ⟨a, ha, rfl⟩
  · show N < (List.replicate (N + 1) ([] : List Edge)).length
    simp
  · show N < (List.replicate (N + 1) ([] : List Edge)).length
    simp

/-- **C8.**  For every input FSM (arcs whose states stay within the declared
final state) and every finite grammar (with dict-backed, hence key-sorted,
feature maps), the driver loop empties the agenda after finitely many
pops: some fuel makes `Chart.run` return, and the returned chart's agenda
is empty.  The proof bounds every reachable edge inside the finite universe
generated by the grammar and the arcs, and descends along the measure
(free storage capacity, agenda length). -/
theorem C8_driver_terminates (uf : Bool) (g : List Rule) (N : Nat)
    (arcs : List (Nat × String × Nat))
    (harcs : ∀ a ∈ arcs, a.1 ≤ N ∧ a.2.2 ≤ N)
    (hsorted : ∀ r ∈ g, ∀ c ∈ r.lhs :: r.rhs,
      (c.features.map Prod.fst).Pairwise (· < ·)) :
    ∃ n ch', Chart.run n (seedChart uf g N arcs) = some ch' ∧
      ch'.agenda = [] := by
  obtain ⟨n, ch', h⟩ := run_total
    (chartCapacity (mkUniverse g arcs N) (seedChart uf g N arcs))
    (seedChart uf g N arcs).agenda.length (seedChart uf g N arcs)
    (seedChart_ok uf g N arcs harcs hsorted) (Nat.le_add_left _ _) (le_refl _)
  exact ⟨n, ch', h, run_some_agenda n h⟩

/-- Concrete instantiation of `C8_driver_terminates`: the one-word
feature-mode grammar scenario runs to completion. -/
theorem C8_witness :
    (∀ a ∈ [(0, "w", 1)], a.1 ≤ 1 ∧ a.2.2 ≤ 1) ∧
    (∀ r ∈ [(⟨⟨"X", []⟩, [⟨"w", []⟩], ([], [[]])⟩ : Rule)],
      ∀ c ∈ r.lhs :: r.rhs, (c.features.map Prod.fst).Pairwise (· < ·)) ∧
    ∃ n ch', Chart.run n (seedChart true
      [(⟨⟨"X", []⟩, [⟨"w", []⟩], ([], [[]])⟩ : Rule)] 1 [(0, "w", 1)]) =
        some ch' ∧ ch'.agenda = [] :=
  ⟨by decide, by decide,
    C8_driver_terminates true [(⟨⟨"X", []⟩, [⟨"w", []⟩], ([], [[]])⟩ : Rule)]
      1 [(0, "w", 1)] (by decide) (by decide)⟩

/-! ### Claim C9 -/

/-- **C9.**  For every edge value exactly one of `iscomplete()` and
`ispartial()` is truthy (the `needed` tuple is either empty or non-empty),
and `incorporate` never reaches its final error branch: it returns a chart
(`isSome`) for every edge passed to it. -/
theorem C9_complete_partial_dichotomy :
    (∀ e : Edge, (e.iscomplete = true ∧ e.ispartialB = false) ∨
      (e.iscomplete = false ∧ e.ispartialB = true)) ∧
    ∀ (ch : Chart) (e : Edge), (ch.incorporate e).isSome = true := by
  constructor
  · intro e
    cases h : e.needed with
    | nil => exact Or.inl (by simp [Edge.iscomplete, Edge.ispartialB, h])
    | cons a l => exact Or.inr (by simp [Edge.iscomplete, Edge.ispartialB, h])
  · intro ch e
    unfold Chart.incorporate
    cases h : e.needed with
    | nil =>
      simp only [Edge.iscomplete, h, List.isEmpty_nil, if_true]
      split <;> simp
    | cons a l =>
      simp only [Edge.iscomplete, Edge.ispartialB, h, List.isEmpty_cons,
        Bool.false_eq_true, if_false, Bool.not_false, if_true]
      split <;> simp

/-! ### Claim C10 -/

/-- **C10.**  Edge equality and hashing ignore the `constraints` field: two
edges agreeing on `(label, left, right, needed)` are `__eq__`-equal, hash
alike, and are identified by set membership (buckets, the agenda membership
test) and by the `prev` map; incorporating an edge whose equivalent is
already stored leaves the chart unchanged, so only the first-inserted
representative's constraint descriptor is retained. -/
theorem C10_eq_hash_ignore_constraints :
    ∀ e e' : Edge, e.key = e'.key →
      Edge.chartEq e e' = true ∧
      e.pyHash = e'.pyHash ∧
      (∀ s : List Edge, memberChart s e = memberChart s e') ∧
      (∀ ch : Chart, ch.prevGet e = ch.prevGet e') ∧
      (∀ ch : Chart, e.iscomplete = true → e.left < ch.completes.length →
        memberChart (bucketGet ch.completes e.left) e = true →
        ch.incorporate e = some ch) ∧
      (∀ ch : Chart, e.ispartialB = true → e.right < ch.partials.length →
        memberChart (bucketGet ch.partials e.right) e = true →
        ch.incorporate e = some ch) := by
  intro e e' hkey
  obtain ⟨h₁, h₂, h₃, h₄⟩ := Edge.key_ext hkey
  refine ⟨?_, ?_, ?_, ?_, ?_, ?_⟩
  · simp [Edge.chartEq, h₁, h₂, h₃, h₄]
  · simp [Edge.pyHash, hkey]
  · intro s
    simp only [memberChart]
    have : (fun x => Edge.chartEq x e) = fun x => Edge.chartEq x e' :=
      funext fun x => Edge.chartEq_congr_right hkey x
    rw [this]
  · intro ch
    have hB : ∀ b : List (Edge × List Edge), prevFindB b e = prevFindB b e' := by
      intro b
      simp only [prevFindB]
      have : (fun kv : Edge × List Edge => Edge.chartEq kv.1 e) =
          fun kv : Edge × List Edge => Edge.chartEq kv.1 e' :=
        funext fun kv => Edge.chartEq_congr_right hkey kv.1
      rw [this]
    simp only [Chart.prevGet, prevFind, h₂]
    cases List.find? (fun kv => decide (kv.1 = e'.left)) ch.prev with
    | none => rfl
    | some kv => exact hB kv.2
  · intro ch hc hl hm
    unfold Chart.incorporate
    rw [hc, if_pos rfl, membership_check_present ch e _ hm]
    simp [bucketSet_bucketGet ch.completes e.left hl]
  · intro ch hp hl hm
    have hc : e.iscomplete = false := by
      simp only [Edge.ispartialB] at hp
      simp only [Edge.iscomplete]
      cases h : e.needed.isEmpty with
      | false => rfl
      | true => rw [h] at hp; simp at hp
    unfold Chart.incorporate
    rw [hc, if_neg (by simp), hp, if_pos rfl,
      membership_check_present ch e _ hm]
    simp [bucketSet_bucketGet ch.partials e.right hl]

/-- Concrete instantiation of `C10_eq_hash_ignore_constraints`: two edges
differing only in their constraint descriptors, one of them stored. -/
theorem C10_witness :
    (Edge.chartEq ⟨⟨"S", []⟩, 0, 1, [], (["num"], [])⟩
        ⟨⟨"S", []⟩, 0, 1, [], ([], [])⟩ = true) ∧
    ({ usingFeatures := false, grammar := [], partials := [[]],
       completes := [[⟨⟨"S", []⟩, 0, 1, [], (["num"], [])⟩]], prev := [],
       agenda := [] : Chart }.incorporate
        ⟨⟨"S", []⟩, 0, 1, [], ([], [])⟩ =
      some { usingFeatures := false, grammar := [], partials := [[]],
             completes := [[⟨⟨"S", []⟩, 0, 1, [], (["num"], [])⟩]],
             prev := [], agenda := [] }) := by
  have h := C10_eq_hash_ignore_constraints
    ⟨⟨"S", []⟩, 0, 1, [], (["num"], [])⟩
    ⟨⟨"S", []⟩, 0, 1, [], ([], [])⟩ (by decide)
  have h' := C10_eq_hash_ignore_constraints
    ⟨⟨"S", []⟩, 0, 1, [], ([], [])⟩
    ⟨⟨"S", []⟩, 0, 1, [], (["num"], [])⟩ (by decide)
  exact ⟨h.1, h'.2.2.2.2.1 _ (by decide) (by decide) (by decide)⟩

end ChartParse
